import Mathlib

/- Shallow embedding of the dataset-partitioning, fold-planning, training-retry and
   experiment-orchestration logic of single_experiment_runner.py.  Python lists and
   numpy arrays are modelled as Lean lists, Python float arithmetic as exact rational
   arithmetic, and the file system and the external trainer as explicit parameters.
   Patient ids, image payloads and mask payloads are modelled as natural numbers. -/

namespace Runner

/-- One sample of the dataset: image, scalar label, mask and patient id, in the shape
consumed by limit_number_patients_per_label (source lines 565-619), which walks
zip(x_whole, y_whole, mask_whole, patients_whole). -/
structure S4 where
  x : ℕ
  y : ℕ
  m : ℕ
  p : ℕ
  deriving DecidableEq, Repr

/-- Python zip over the four parallel dataset arrays (truncates at the shortest). -/
def zip4 : List ℕ → List ℕ → List ℕ → List ℕ → List S4
  | a :: as, b :: bs, c :: cs, d :: ds => ⟨a, b, c, d⟩ :: zip4 as bs cs ds
  | _, _, _, _ => []

/-- Projection of a sample list back to the four parallel arrays. -/
def unzip4 (l : List S4) : List ℕ × List ℕ × List ℕ × List ℕ :=
  (l.map S4.x, l.map S4.y, l.map S4.m, l.map S4.p)

/-- Contiguity check for a patient-id sequence: once a patient id has been left behind,
it never occurs again.  This is the standing invariant "same patient slices are
adjacent" that the source assumes (e.g. comments at lines 618, 626, 860, 872). -/
def noRevisit : List ℕ → Bool
  | [] => true
  | q :: rest => ((rest.dropWhile (fun r => r == q)).all (fun r => r != q)) && noRevisit rest

/-- Index b is the start of a contiguous patient run of ps (or does not cut a run):
either the very first sample or a sample whose patient differs from its predecessor. -/
def RunStart (ps : List ℕ) (b : ℕ) : Prop :=
  b < ps.length ∧ (b = 0 ∨ ps.getD b 0 ≠ ps.getD (b - 1) 0)

instance (ps : List ℕ) (b : ℕ) : Decidable (RunStart ps b) := by
  unfold RunStart; infer_instance

/-- Run start relative to a scan state: position j of l starts a new patient run when
the scan arrives with previous patient prev (j = 0 compares against prev, later
positions against their predecessor in l). -/
def RunStartFrom (prev : Option ℕ) (l : List ℕ) (j : ℕ) : Prop :=
  j < l.length ∧ ((j = 0 ∧ prev ≠ some (l.getD 0 0)) ∨ (0 < j ∧ l.getD j 0 ≠ l.getD (j - 1) 0))

/-- Number of contiguous patient runs of the sequence, continuing a run held in prev:
this is exactly the number of iterations in which the planners see patient != prev_patient. -/
def numRunsP : Option ℕ → List ℕ → ℕ
  | _, [] => 0
  | prev, q :: rest => if prev = some q then numRunsP prev rest else 1 + numRunsP (some q) rest

/-- Number of contiguous patient runs of a patient-id sequence (distinct patients,
when same-patient samples are adjacent). -/
def numRuns (ps : List ℕ) : ℕ := numRunsP none ps

/-- Insertion step of an ascending insertion sort on patient ids. -/
def insertSorted (a : ℕ) : List ℕ → List ℕ
  | [] => [a]
  | b :: t => if a ≤ b then a :: b :: t else b :: insertSorted a t

/-- Ascending sort of a patient-id list. -/
def sortNat (l : List ℕ) : List ℕ := l.foldr insertSorted []

/-- Model of np.unique: the sorted list of distinct patient ids. -/
def npUnique (l : List ℕ) : List ℕ := (sortNat l).dedup

/- ------------------------------------------------------------------ -/
/- limit_number_patients_per_label (source lines 565-619)             -/
/- ------------------------------------------------------------------ -/

/-- Loop body of limit_number_patients_per_label (source lines 585-618).  State: the
distinct-patient counters n0 and n1 per label, the cut indices i0 and i1, the admitted
output news (new_x/new_y/new_mask/new_patients, kept as one zipped list), the
seen-patient set ht and the admitted-patient set ht2 (Python sets, modelled as
duplicate-free lists), and the running enumeration index i.  The list append/pop pair
of the source is modelled by `++ [s]` and `dropLast`, set add by `List.insert`
and set remove by `List.erase`. -/
def limitGo (adj : Bool) (k : ℕ) (n0 n1 : ℕ) (i0 i1 : Option ℕ) (news : List S4)
    (ht ht2 : List ℕ) (i : ℕ) : List S4 → List S4
  | [] => news
  | s :: rest =>
    let adm := (s.y = 0 ∧ i0 = none) ∨ (s.y = 1 ∧ i1 = none) ∨ s.p ∈ ht2
    let news1 := if adm then news ++ [s] else news
    let ht2a := if adm then ht2.insert s.p else ht2
    if s.p ∈ ht then
      limitGo adj k n0 n1 i0 i1 news1 ht ht2a (i + 1) rest
    else
      let ht1 := ht.insert s.p
      if s.y = 0 then
        if n0 + 1 = k + 1 then
          let news2 := news1.dropLast
          let ht2b := ht2a.erase s.p
          if (some i) ≠ none ∧ i1 ≠ none ∧ adj = true then news2
          else limitGo adj k (n0 + 1) n1 (some i) i1 news2 ht1 ht2b (i + 1) rest
        else
          if i0 ≠ none ∧ i1 ≠ none ∧ adj = true then news1
          else limitGo adj k (n0 + 1) n1 i0 i1 news1 ht1 ht2a (i + 1) rest
      else
        if n1 + 1 = k + 1 then
          let news2 := news1.dropLast
          let ht2b := ht2a.erase s.p
          if i0 ≠ none ∧ (some i) ≠ none ∧ adj = true then news2
          else limitGo adj k n0 (n1 + 1) i0 (some i) news2 ht1 ht2b (i + 1) rest
        else
          if i0 ≠ none ∧ i1 ≠ none ∧ adj = true then news1
          else limitGo adj k n0 (n1 + 1) i0 i1 news1 ht1 ht2a (i + 1) rest

/-- Sample-level core of limit_number_patients_per_label with a cap: runs the loop of
source lines 585-618 from the initial state n0 = n1 = 0, i0 = i1 = None, empty output
and empty seen/admitted sets. -/
def limitSamples (l : List S4) (k : ℕ) (adj : Bool) : List S4 :=
  limitGo adj k 0 0 none none [] [] [] 0 l

/-- Model of limit_number_patients_per_label (source lines 565-619).  When
adjacent=False the four arrays are first reordered in ascending patient order (the
np.argsort at line 570, modelled as a merge sort on the zipped samples); with no cap
the inputs are returned unchanged (lines 581-583); otherwise the capping loop runs. -/
def limit_number_patients_per_label (xs ys ms ps : List ℕ) (numPatientsPerLabel : Option ℕ)
    (adjacent : Bool) : List ℕ × List ℕ × List ℕ × List ℕ :=
  if adjacent then
    match numPatientsPerLabel with
    | none => (xs, ys, ms, ps)
    | some k => unzip4 (limitSamples (zip4 xs ys ms ps) k true)
  else
    let w := (zip4 xs ys ms ps).mergeSort (fun a b => a.p ≤ b.p)
    match numPatientsPerLabel with
    | none => unzip4 w
    | some k => unzip4 (limitSamples w k false)

/- ------------------------------------------------------------------ -/
/- Fold/Split Planner                                                  -/
/- ------------------------------------------------------------------ -/

/-- Loop of the patient-level fold planner of do_cross_validation (source lines
863-880): scans the patient sequence, counts run starts, and records the sample index
whenever int(total_patient_num / num_patients_per_fold) changes.  The Python float
division is modelled by exact rational division with floor (int() truncates towards
zero, and all quotients here are nonnegative).  The sentinel prev_patient = "" is
modelled by Option. -/
def cvGo (npf : ℚ) : Option ℕ → ℤ → ℤ → ℕ → List ℕ → List ℕ
  | _, _, _, _, [] => []
  | prev, total, prevFac, i, q :: rest =>
    if prev = some q then cvGo npf prev total prevFac (i + 1) rest
    else
      let t := total + 1
      let fac := ⌊(t : ℚ) / npf⌋
      if fac ≠ prevFac then i :: cvGo npf (some q) t fac (i + 1) rest
      else cvGo npf (some q) t fac (i + 1) rest

/-- Fold boundary sequence of do_cross_validation with patient_level_cv (source lines
863-880): the recorded fold start indices followed by the final append of
len(patients_whole) at line 880. -/
def do_cross_validation_folds (ps : List ℕ) (numPatients numFolds : ℕ) : List ℕ :=
  cvGo ((numPatients : ℚ) / (numFolds : ℚ)) none (-1) (-1) 0 ps ++ [ps.length]

/-- Test-split scan shared by do_training_test (lines 1216-1229, clamp = true) and
correct_old_runs (lines 1613-1622, clamp = false).  Walks the patient sequence
counting run starts from -1 and breaks with the current index the moment the count
reaches the requested number of test patients; when the list is exhausted without a
break, do_training_test clamps to the sequence length if the count fell short while
correct_old_runs always keeps the last loop index (Python's i after the for loop). -/
def teGo (clamp : Bool) (k : ℕ) (len : ℕ) : Option ℕ → ℤ → ℕ → List ℕ → ℕ
  | _, total, i, [] =>
    if clamp = true then (if total < (k : ℤ) then len else i - 1) else i - 1
  | prev, total, i, q :: rest =>
    if prev = some q then teGo clamp k len prev total (i + 1) rest
    else
      let t := total + 1
      if t = (k : ℤ) then i
      else teGo clamp k len (some q) t (i + 1) rest

/-- Test-set boundary of do_training_test with test_data=None (source lines 1216-1229). -/
def teIdx (ps : List ℕ) (numPatientsTe : ℕ) : ℕ :=
  teGo true numPatientsTe ps.length none (-1) 0 ps

/-- Test-set boundary of correct_old_runs (source lines 1613-1622); the clamp of
do_training_test lines 1226-1229 is absent there. -/
def teIdxCorr (ps : List ℕ) (numPatientsTe : ℕ) : ℕ :=
  teGo false numPatientsTe ps.length none (-1) 0 ps

/-- Training-split scan shared by do_training_test (lines 1243-1263, clamp = true) and
correct_old_runs (lines 1623-1640, clamp = false).  Starting after the test boundary,
it records the sample index at which each requested training-patient count is reached,
advancing through the remaining requested sizes and breaking when they are exhausted;
at list exhaustion do_training_test appends len(patients_whole) when the last pending
size was not reached (lines 1262-1263), which correct_old_runs does not do. -/
def trGo (clamp : Bool) (len : ℕ) : Option ℕ → ℤ → ℕ → List ℕ → ℕ → List ℕ → List ℕ
  | _, total, tmp, _, _, [] =>
    if clamp = true ∧ total < (tmp : ℤ) then [len] else []
  | prev, total, tmp, sizes, i, q :: rest =>
    if prev = some q then trGo clamp len prev total tmp sizes (i + 1) rest
    else
      let t := total + 1
      if t = (tmp : ℤ) then
        match sizes with
        | [] => [i]
        | s :: srest => i :: trGo clamp len (some q) t s srest (i + 1) rest
      else trGo clamp len (some q) t tmp sizes (i + 1) rest

/-- Training boundaries of do_training_test (source lines 1243-1263): the loop skips
indices below the test boundary with prev_patient reset, which equals scanning
ps.drop te with index origin te. -/
def trIdx (ps : List ℕ) (te : ℕ) (sizes : List ℕ) : List ℕ :=
  match sizes with
  | [] => []
  | s :: srest => trGo true ps.length none (-1) s srest te (ps.drop te)

/-- Training boundaries of correct_old_runs (source lines 1623-1640). -/
def trIdxCorr (ps : List ℕ) (te : ℕ) (sizes : List ℕ) : List ℕ :=
  match sizes with
  | [] => []
  | s :: srest => trGo false ps.length none (-1) s srest te (ps.drop te)

/-- The boundary sequence that do_training_test derives for one run: the test-set
boundary followed by the increasing training-size boundaries. -/
def trainingBoundaries (ps : List ℕ) (numPatientsTe : ℕ) (sizes : List ℕ) : List ℕ :=
  teIdx ps numPatientsTe :: trIdx ps (teIdx ps numPatientsTe) sizes

/- ------------------------------------------------------------------ -/
/- Training Driver retry loop (source lines 1331-1351)                 -/
/- ------------------------------------------------------------------ -/

/-- Retry loop of the Training Driver (source lines 1331-1348): while num_times <
max_num_times, increment num_times, invoke the external trainer (modelled as a
function from the invocation number to the training accuracy aTr it returns, floats
modelled as rationals) and break as soon as aTr > 0.7.  The argument rem is the
remaining number of allowed invocations, so the recursion mirrors the while guard. -/
def retryGo (trainer : ℕ → ℚ) : ℕ → ℚ → ℕ → ℕ × ℚ
  | numTimes, aTr, 0 => (numTimes, aTr)
  | numTimes, _, rem + 1 =>
    let n := numTimes + 1
    let a := trainer n
    if a > 7 / 10 then (n, a) else retryGo trainer n a rem

/-- One training step of do_training_test around the external trainer (source lines
1331-1351): runs the bounded retry loop starting from num_times = 0 with
max_num_times = 3, and, if the final training accuracy is still <= 0.7, appends the
number of training patients of this step to the error file unknown_error.txt (the
returned list holds the lines written to that file).  The function returns the
invocation count, the last training accuracy obtained, and the error-file writes; it
always returns normally, modelling that the source raises no exception here and
continues the run with the last model obtained. -/
def do_training_test_retry (trainer : ℕ → ℚ) (numPatientsTrStep : ℕ) : ℕ × ℚ × List ℕ :=
  let r := retryGo trainer 0 0 3
  (r.1, r.2, if r.2 ≤ 7 / 10 then [numPatientsTrStep] else [])

/- ------------------------------------------------------------------ -/
/- Experiment Grid Orchestrator, one combination (source lines 2287-2337) -/
/- ------------------------------------------------------------------ -/

/-- Observable outcome of one pass of the Experiment Grid Orchestrator over a single
hyperparameter combination.  invokedTraining records a call to do_cross_validation or
do_training_test, invokedCorrection a call to correct_old_runs, cacheWrite the
pickle.dump into the per-combination results file (none means the file is not
touched), collected the all_data_comb entry appended to the global summary, and
errorRaised the raise at line 2320. -/
structure OrchStep (ρ : Type) where
  invokedTraining : Bool
  invokedCorrection : Bool
  cacheWrite : Option (ℕ × ρ)
  collected : Option (ℕ × ρ)
  errorRaised : Bool

/-- One pass of the Experiment Grid Orchestrator over a combination (source lines
2287-2337).  pdfExists models os.path.isfile on the per-combination figures PDF,
cached the per-combination results pickle content (comb key plus result payload, none
when the file is absent), correctionMode the args.correction flag, combInCorrection
the test comb in correction_ht, comb the combination key, trainResult the params that
a fresh training run would produce, and correctResult what correct_old_runs computes
from the loaded old payload.  Combination keys and payloads are opaque. -/
def orchestrateComb {ρ : Type} (pdfExists : Bool) (cached : Option (ℕ × ρ))
    (correctionMode : Bool) (combInCorrection : Bool) (comb : ℕ)
    (trainResult : ρ) (correctResult : ρ → ρ) : OrchStep ρ :=
  if pdfExists = false then
    { invokedTraining := true, invokedCorrection := false,
      cacheWrite := some (comb, trainResult), collected := some (comb, trainResult),
      errorRaised := false }
  else
    match cached with
    | some (c, r) =>
      if correctionMode = true ∧ combInCorrection = true then
        if c ≠ comb then
          { invokedTraining := false, invokedCorrection := false, cacheWrite := none,
            collected := none, errorRaised := true }
        else
          { invokedTraining := false, invokedCorrection := true,
            cacheWrite := some (comb, correctResult r),
            collected := some (comb, correctResult r), errorRaised := false }
      else
        { invokedTraining := false, invokedCorrection := false, cacheWrite := none,
          collected := some (c, r), errorRaised := false }
    | none =>
      { invokedTraining := false, invokedCorrection := false, cacheWrite := none,
        collected := none, errorRaised := false }

/- ------------------------------------------------------------------ -/
/- main: train/test patient overlap check (source lines 2129-2134)     -/
/- ------------------------------------------------------------------ -/

/-- Outcome of a run of main with respect to the overlap check: the raised exception
message, if any, and the number of training invocations performed afterwards. -/
structure MainRun where
  raised : Option String
  trainingInvocations : ℕ
  deriving DecidableEq, Repr

/-- Control flow of main around the overlap check (source lines 2129-2134): after
loading and capping, main takes patients = np.unique(patients_whole) and, when a
separate test dataset was supplied, raises for any patient also present in
np.unique(patients_t_whole).  The combination loop performing all training (lines
2267-2345) runs strictly after this check, so a raise yields zero training
invocations; gridInvocations abstracts the number of training invocations the grid
loop would perform. -/
def mainModel (hasTestData : Bool) (psWhole psTest : List ℕ) (gridInvocations : ℕ) :
    MainRun :=
  let patients := npUnique psWhole
  let patientsTe := npUnique psTest
  if hasTestData = true ∧ patients.any (fun q => decide (q ∈ patientsTe)) then
    { raised := some "Training and test set have repeated patients",
      trainingInvocations := 0 }
  else
    { raised := none, trainingInvocations := gridInvocations }

/- ------------------------------------------------------------------ -/
/- calculate_patients_label (source lines 738-754)                     -/
/- ------------------------------------------------------------------ -/

/-- Loop of calculate_patients_label (source lines 743-753) after its first sample:
pv is the previous patient, acc the running label sum of the current run (the last
entry of patient_percentages) and n the slice count num_slices of the current run;
when the patient changes the previous run is closed by dividing its sum by its count,
and at the end the last run is closed the same way.  Python float arithmetic is
modelled by exact rationals. -/
def cplGo : ℕ → ℚ → ℕ → List (ℚ × ℕ) → List ℚ
  | _, acc, n, [] => [acc / (n : ℚ)]
  | pv, acc, n, (yv, q) :: rest =>
    if q = pv then cplGo pv (acc + yv) (n + 1) rest
    else (acc / (n : ℚ)) :: cplGo q yv 1 rest

/-- Model of calculate_patients_label (source lines 738-754): walks
zip(slices_labels, patients) and produces one average label per contiguous patient
run.  On an empty zip the source raises IndexError at line 753; the model returns []
there, and the claims about this function assume a non-empty input. -/
def calculate_patients_label (slicesLabels : List ℚ) (patients : List ℕ) : List ℚ :=
  match slicesLabels.zip patients with
  | [] => []
  | (yv, q) :: rest => cplGo q yv 1 rest

/-- Chunking of a label/patient sequence into contiguous same-patient runs: loop part,
cur being the current run accumulated in reverse. -/
def runsGo : ℕ → List (ℚ × ℕ) → List (ℚ × ℕ) → List (List (ℚ × ℕ))
  | _, cur, [] => [cur.reverse]
  | pv, cur, (yv, q) :: rest =>
    if q = pv then runsGo pv ((yv, q) :: cur) rest
    else cur.reverse :: runsGo q [(yv, q)] rest

/-- Chunking of a label/patient sequence into its contiguous same-patient runs, in
order. -/
def patientRuns : List (ℚ × ℕ) → List (List (ℚ × ℕ))
  | [] => []
  | (yv, q) :: rest => runsGo q [(yv, q)] rest

/-- Arithmetic mean of the labels of one run. -/
def runMean (r : List (ℚ × ℕ)) : ℚ := (r.map Prod.fst).sum / (r.length : ℚ)

/- ------------------------------------------------------------------ -/
/- reorder_maintaining_label_balance (source lines 622-701)            -/
/- ------------------------------------------------------------------ -/

/-- One sample as seen by reorder_maintaining_label_balance: x_set entry, one-hot
y_set row (the scalar label is its second component, extracted at line 631 as
np.array(y_set)[:, 1]), mask entry and patient id. -/
structure R4 where
  x : ℕ
  y : ℕ × ℕ
  m : ℕ
  p : ℕ
  deriving DecidableEq, Repr

/-- Zip of the four parallel arrays handled by reorder_maintaining_label_balance. -/
def zip4R : List ℕ → List (ℕ × ℕ) → List ℕ → List ℕ → List R4
  | a :: as, b :: bs, c :: cs, d :: ds => ⟨a, b, c, d⟩ :: zip4R as bs cs ds
  | _, _, _, _ => []

/-- Greedy balance comparison of reorder_maintaining_label_balance (lines 648 and
682): true selects the next label-0 element. -/
def balStep (c0 c1 : ℚ) (n0 n1 : ℕ) : Bool :=
  decide (|((n0 : ℚ) + 1) * c1 - (n1 : ℚ) * c0| ≤ |(n0 : ℚ) * c1 - ((n1 : ℚ) + 1) * c0|)

/-- Selection loop shared by both branches of reorder_maintaining_label_balance
(lines 646-659 and 680-689): at each of the given number of steps it picks the next
unused label-0 position idxZ[n0] or label-1 position idxO[n1] according to balStep,
and returns the picked positions together with the final counters n0 and n1.  An
out-of-range pick raises IndexError in Python; the model returns dflt there, which
the call sites choose so that such a pick contributes nothing, and the theorems
establish that the in-range cases coincide with the source. -/
def pickLoop (c0 c1 : ℚ) (idxZ idxO : List ℕ) (dflt : ℕ) : ℕ → ℕ → ℕ → List ℕ × ℕ × ℕ
  | 0, n0, n1 => ([], n0, n1)
  | steps + 1, n0, n1 =>
    if balStep c0 c1 n0 n1 then
      let r := pickLoop c0 c1 idxZ idxO dflt steps (n0 + 1) n1
      (idxZ.getD n0 dflt :: r.1, r.2)
    else
      let r := pickLoop c0 c1 idxZ idxO dflt steps n0 (n1 + 1)
      (idxO.getD n1 dflt :: r.1, r.2)

/-- Unique-patient branch of reorder_maintaining_label_balance (source lines
634-660): every patient owns exactly one sample, so the balance loop picks single
samples by position.  The assert at line 638 is modelled by returning none when it
fails. -/
def reorderUnique (xs : List ℕ) (ys : List (ℕ × ℕ)) (ms ps : List ℕ) :
    Option (List ℕ × List (ℕ × ℕ) × List ℕ × List ℕ × ℕ × ℕ) :=
  let labels := ys.map Prod.snd
  let cnt0 := labels.count 0
  let cnt1 := labels.count 1
  if cnt0 + cnt1 = labels.length then
    let c0 : ℚ := (cnt0 : ℚ) / (labels.length : ℚ)
    let c1 : ℚ := (cnt1 : ℚ) / (labels.length : ℚ)
    let idxZ := (List.range labels.length).filter (fun i => labels.getD i 2 = 0)
    let idxO := (List.range labels.length).filter (fun i => labels.getD i 2 = 1)
    let r := pickLoop c0 c1 idxZ idxO 0 labels.length 0 0
    some (r.1.map (fun j => xs.getD j 0), r.1.map (fun j => ys.getD j (0, 0)),
          r.1.map (fun j => ms.getD j 0), r.1.map (fun j => ps.getD j 0), r.2.1, r.2.2)
  else none

/-- Repeated-patient branch of reorder_maintaining_label_balance (source lines
662-701): the balance loop picks whole contiguous patient runs, each found by a
first-occurrence scan (next(...), modelled by indexOf) and extended by the while loop
of lines 691-693 (modelled by takeWhile after drop).  The asserts at lines 672 and
700 are modelled by returning none when they fail, as is the IndexError Python would
raise where the model reads a default past an array end. -/
def reorderRuns (xs : List ℕ) (ys : List (ℕ × ℕ)) (ms ps : List ℕ) :
    Option (List ℕ × List (ℕ × ℕ) × List ℕ × List ℕ × ℕ × ℕ) :=
  let labels := ys.map Prod.snd
  let u := npUnique ps
  let idxsFirst := u.map (fun q => ps.indexOf q)
  let patLabels := idxsFirst.map (fun j => labels.getD j 2)
  let cnt0 := patLabels.count 0
  let cnt1 := patLabels.count 1
  if cnt0 + cnt1 = u.length then
    let c0 : ℚ := (cnt0 : ℚ) / (u.length : ℚ)
    let c1 : ℚ := (cnt1 : ℚ) / (u.length : ℚ)
    let idxZ := (List.range u.length).filter (fun j => patLabels.getD j 2 = 0)
    let idxO := (List.range u.length).filter (fun j => patLabels.getD j 2 = 1)
    let r := pickLoop c0 c1 idxZ idxO u.length u.length 0 0
    let slices := r.1.map (fun j =>
      (idxsFirst.getD j ps.length,
       ((ps.drop (idxsFirst.getD j ps.length)).takeWhile
         (fun q => q == u.getD j 0)).length))
    let ox := (slices.map (fun sl => (xs.drop sl.1).take sl.2)).flatten
    let oy := (slices.map (fun sl => (ys.drop sl.1).take sl.2)).flatten
    let om := (slices.map (fun sl => (ms.drop sl.1).take sl.2)).flatten
    let op := (slices.map (fun sl => (ps.drop sl.1).take sl.2)).flatten
    if op.length = ps.length then some (ox, oy, om, op, r.2.1, r.2.2) else none
  else none

/-- Model of reorder_maintaining_label_balance (source lines 622-701): dispatch
between the unique-patient branch (len(unique_p) == len(p_set), line 634) and the
repeated-patient branch. -/
def reorder_maintaining_label_balance (xs : List ℕ) (ys : List (ℕ × ℕ)) (ms ps : List ℕ) :
    Option (List ℕ × List (ℕ × ℕ) × List ℕ × List ℕ × ℕ × ℕ) :=
  if (npUnique ps).length = ps.length then reorderUnique xs ys ms ps
  else reorderRuns xs ys ms ps

/-- Invariant of the capping loop of limit_number_patients_per_label, relating the
loop state (counters n0 and n1, cut markers i0 and i1, output news, seen set ht and
admitted set ht2) to the already processed prefix done of the input. -/
structure LimInv (k n0 n1 : ℕ) (i0 i1 : Option ℕ) (news : List S4) (ht ht2 : List ℕ)
    (done : List S4) : Prop where
  hI1 : news = done.filter (fun s => decide (s.p ∈ ht2))
  hI2 : ∀ q ∈ ht2, q ∈ ht
  hI3 : ∀ s ∈ done, s.p ∈ ht
  hI4 : ∀ q ∈ ht, ∃ s, s ∈ done ∧ s.p = q
  hI5 : i0 = none →
    ((news.filter (fun s => s.y = 0)).map S4.p).toFinset.card = n0 ∧ n0 ≤ k
  hI6 : i0 ≠ none →
    ((news.filter (fun s => s.y = 0)).map S4.p).toFinset.card ≤ k ∧ k < n0
  hI7 : i1 = none →
    ((news.filter (fun s => s.y = 1)).map S4.p).toFinset.card = n1 ∧ n1 ≤ k
  hI8 : i1 ≠ none →
    ((news.filter (fun s => s.y = 1)).map S4.p).toFinset.card ≤ k ∧ k < n1
  hI10 : ∀ s ∈ done, s.y = 0 → s.p ∉ ht2 → i0 ≠ none
  hI11 : ∀ s ∈ done, s.y = 1 → s.p ∉ ht2 → i1 ≠ none

/- ================================================================== -/
/- Theorems                                                            -/
/- ================================================================== -/

/- Helper lemmas about npUnique. -/

theorem mem_insertSorted (a b : ℕ) (t : List ℕ) : a ∈ insertSorted b t ↔ a = b ∨ a ∈ t := by
  induction t with
  | nil => simp [insertSorted]
  | cons c t ih =>
    unfold insertSorted
    by_cases h : b ≤ c
    · simp [h]
    · simp only [if_neg h, List.mem_cons, ih]
      tauto

theorem mem_sortNat (a : ℕ) (l : List ℕ) : a ∈ sortNat l ↔ a ∈ l := by
  induction l with
  | nil => simp [sortNat]
  | cons b t ih =>
    show a ∈ insertSorted b (sortNat t) ↔ _
    rw [mem_insertSorted, ih]
    simp

theorem mem_npUnique (a : ℕ) (l : List ℕ) : a ∈ npUnique l ↔ a ∈ l := by
  rw [npUnique, List.mem_dedup, mem_sortNat]

theorem npUnique_nodup (l : List ℕ) : (npUnique l).Nodup := List.nodup_dedup _

/- ------------------------------------------------------------------ -/
/- Claim C10                                                           -/
/- ------------------------------------------------------------------ -/

/-- Claim C10: calling limit_number_patients_per_label with num_patients_per_label=None
and adjacent=True is the identity on content: the returned image, label and mask
sequences and the returned patient list equal the inputs element for element, in the
same order, with nothing removed or truncated. -/
theorem C10_limit_none_is_identity (xs ys ms ps : List ℕ) :
    limit_number_patients_per_label xs ys ms ps none true = (xs, ys, ms, ps) := rfl

/- ------------------------------------------------------------------ -/
/- Claim C8                                                            -/
/- ------------------------------------------------------------------ -/

/-- Claim C8: for 6 patients with 2 samples each (patient-contiguous, 12 samples) and
num_folds = 3, the patient-level fold planner of do_cross_validation produces exactly
the boundary sequence [0, 4, 8, 12]: each fold holds exactly 2 patients (4 samples). -/
theorem C8_cv_folds_six_patients_three_folds :
    do_cross_validation_folds [1, 1, 2, 2, 3, 3, 4, 4, 5, 5, 6, 6] 6 3 = [0, 4, 8, 12] := by
  norm_num [do_cross_validation_folds, cvGo]
  decide

/- ------------------------------------------------------------------ -/
/- Claim C4                                                            -/
/- ------------------------------------------------------------------ -/

/-- Claim C4: when the external trainer returns training accuracy <= 0.7 on each of
three successive invocations, the Training Driver invokes the trainer exactly 3
times, then appends the step's number of training patients to the error file
unknown_error.txt (the third component lists the lines written to it), and continues
with the last result obtained, raising no exception (the driver returns normally). -/
theorem C4_retry_three_times_then_log (trainer : ℕ → ℚ) (numPatients : ℕ)
    (h : ∀ n, 1 ≤ n → n ≤ 3 → trainer n ≤ 7 / 10) :
    do_training_test_retry trainer numPatients = (3, trainer 3, [numPatients]) := by
  have h1 : ¬ trainer 1 > 7 / 10 := not_lt.mpr (h 1 (by norm_num) (by norm_num))
  have h2 : ¬ trainer 2 > 7 / 10 := not_lt.mpr (h 2 (by norm_num) (by norm_num))
  have h3 : ¬ trainer 3 > 7 / 10 := not_lt.mpr (h 3 (by norm_num) (by norm_num))
  simp only [do_training_test_retry, retryGo, Nat.reduceAdd, if_neg h1, if_neg h2,
    if_neg h3, if_pos (not_lt.mp h3)]

/-- Witness for C4, the concrete scenario of the spec: a trainer stub returning
accuracy 0.5 on every call makes the driver call it exactly 3 times and log the
training size 16. -/
theorem C4_retry_three_times_then_log_witness :
    (∀ n, 1 ≤ n → n ≤ 3 → (fun _ : ℕ => (1 : ℚ) / 2) n ≤ 7 / 10)
    ∧ do_training_test_retry (fun _ : ℕ => (1 : ℚ) / 2) 16 = (3, 1 / 2, [16]) := by
  refine ⟨fun n _ _ => by norm_num, ?_⟩
  exact C4_retry_three_times_then_log (fun _ : ℕ => (1 : ℚ) / 2) 16 (fun n _ _ => by norm_num)

/- ------------------------------------------------------------------ -/
/- Claim C5                                                            -/
/- ------------------------------------------------------------------ -/

/-- Claim C5: for a combination whose figures PDF already exists and which is not in
the correction set, one orchestrator pass performs no training invocation and no
correction invocation, writes nothing to the persisted result cache (the file is left
byte-identical), and only loads the cached results: what it collects is exactly the
cache content. -/
theorem C5_existing_artifact_skips {ρ : Type} (cached : Option (ℕ × ρ))
    (correctionMode : Bool) (comb : ℕ) (trainResult : ρ) (correctResult : ρ → ρ) :
    (orchestrateComb true cached correctionMode false comb trainResult
        correctResult).invokedTraining = false
    ∧ (orchestrateComb true cached correctionMode false comb trainResult
        correctResult).invokedCorrection = false
    ∧ (orchestrateComb true cached correctionMode false comb trainResult
        correctResult).cacheWrite = none
    ∧ (orchestrateComb true cached correctionMode false comb trainResult
        correctResult).collected = cached := by
  cases cached with
  | none => simp [orchestrateComb]
  | some cr => cases cr with
    | mk c r => simp [orchestrateComb]

/- ------------------------------------------------------------------ -/
/- Claim C7                                                            -/
/- ------------------------------------------------------------------ -/

/-- Claim C7: when a separate test dataset is given and its patient-id set shares at
least one patient with the training patient-id set, main raises the exception of line
2134 before any training is invoked: the model records the raised message and zero
training invocations, whatever the grid would have run. -/
theorem C7_train_test_overlap_raises (psWhole psTest : List ℕ) (grid : ℕ) (q : ℕ)
    (hq : q ∈ psWhole) (hqt : q ∈ psTest) :
    mainModel true psWhole psTest grid =
      { raised := some "Training and test set have repeated patients",
        trainingInvocations := 0 } := by
  have hany : (npUnique psWhole).any (fun r => decide (r ∈ npUnique psTest)) = true := by
    rw [List.any_eq_true]
    exact ⟨q, (mem_npUnique q psWhole).mpr hq, by
      simp [mem_npUnique q psTest, hqt]⟩
  unfold mainModel
  rw [if_pos ⟨rfl, hany⟩]

/-- Witness for C7: datasets sharing patient 5 make main raise with no training. -/
theorem C7_train_test_overlap_raises_witness :
    (5 ∈ [5, 6]) ∧ (5 ∈ [5, 9])
    ∧ mainModel true [5, 6] [5, 9] 4 =
      { raised := some "Training and test set have repeated patients",
        trainingInvocations := 0 } :=
  ⟨by decide, by decide,
    C7_train_test_overlap_raises [5, 6] [5, 9] 4 5 (by decide) (by decide)⟩

/- ------------------------------------------------------------------ -/
/- Fold/Split Planner lemmas (for C3 and C6)                           -/
/- ------------------------------------------------------------------ -/

theorem getD_drop (ps : List ℕ) (te n : ℕ) : (ps.drop te).getD n 0 = ps.getD (te + n) 0 := by
  simp [List.getD_eq_getElem?_getD, List.getElem?_drop]

theorem runStartFrom_lift (q : ℕ) (rest : List ℕ) (prev : Option ℕ) (j : ℕ)
    (h : RunStartFrom (some q) rest j) : RunStartFrom prev (q :: rest) (j + 1) := by
  obtain ⟨hj, hrs⟩ := h
  refine ⟨by simp; omega, Or.inr ⟨Nat.succ_pos j, ?_⟩⟩
  rcases hrs with ⟨hj0, hne⟩ | ⟨hj0, hne⟩
  · subst hj0
    simp only [List.getD_cons_succ, Nat.add_sub_cancel, List.getD_cons_zero]
    intro hcontra
    exact hne (congrArg some hcontra.symm)
  · have e2 : j + 1 - 1 = (j - 1) + 1 := by omega
    rw [List.getD_cons_succ, e2, List.getD_cons_succ]
    exact hne

theorem cvGo_cons (npf : ℚ) (prev : Option ℕ) (total prevFac : ℤ) (i : ℕ) (q : ℕ)
    (rest : List ℕ) :
    cvGo npf prev total prevFac i (q :: rest) =
      if prev = some q then cvGo npf prev total prevFac (i + 1) rest
      else if ⌊((total + 1 : ℤ) : ℚ) / npf⌋ ≠ prevFac then
        (i :: cvGo npf (some q) (total + 1) ⌊((total + 1 : ℤ) : ℚ) / npf⌋ (i + 1) rest)
      else cvGo npf (some q) (total + 1) ⌊((total + 1 : ℤ) : ℚ) / npf⌋ (i + 1) rest := rfl

theorem cvGo_mem (npf : ℚ) : ∀ (l : List ℕ) (prev : Option ℕ) (total prevFac : ℤ)
    (i b : ℕ), b ∈ cvGo npf prev total prevFac i l →
    ∃ j, b = i + j ∧ RunStartFrom prev l j := by
  intro l
  induction l with
  | nil => intro prev total prevFac i b hb; simp [cvGo] at hb
  | cons q rest ih =>
    intro prev total prevFac i b hb
    rw [cvGo_cons] at hb
    by_cases hp : prev = some q
    · subst hp
      rw [if_pos rfl] at hb
      obtain ⟨j, hbj, hrs⟩ := ih (some q) total prevFac (i + 1) b hb
      exact ⟨j + 1, by omega, runStartFrom_lift q rest _ j hrs⟩
    · rw [if_neg hp] at hb
      by_cases hf : ⌊((total + 1 : ℤ) : ℚ) / npf⌋ ≠ prevFac
      · rw [if_pos hf] at hb
        rcases List.mem_cons.mp hb with hbi | hb2
        · exact ⟨0, by omega, by simp, Or.inl ⟨rfl, by simpa using hp⟩⟩
        · obtain ⟨j, hbj, hrs⟩ := ih (some q) (total + 1) _ (i + 1) b hb2
          exact ⟨j + 1, by omega, runStartFrom_lift q rest _ j hrs⟩
      · rw [if_neg hf] at hb
        obtain ⟨j, hbj, hrs⟩ := ih (some q) (total + 1) _ (i + 1) b hb
        exact ⟨j + 1, by omega, runStartFrom_lift q rest _ j hrs⟩

theorem cvGo_pairwise (npf : ℚ) : ∀ (l : List ℕ) (prev : Option ℕ) (total prevFac : ℤ)
    (i : ℕ), List.Pairwise (· < ·) (cvGo npf prev total prevFac i l) := by
  intro l
  induction l with
  | nil => intro prev total prevFac i; simp [cvGo]
  | cons q rest ih =>
    intro prev total prevFac i
    rw [cvGo_cons]
    by_cases hp : prev = some q
    · rw [if_pos hp]; exact ih _ _ _ _
    · rw [if_neg hp]
      by_cases hf : ⌊((total + 1 : ℤ) : ℚ) / npf⌋ ≠ prevFac
      · rw [if_pos hf]
        refine List.pairwise_cons.mpr ⟨?_, ih _ _ _ _⟩
        intro b hb
        obtain ⟨j, hbj, hj, _⟩ := cvGo_mem npf rest _ _ _ (i + 1) b hb
        omega
      · rw [if_neg hf]; exact ih _ _ _ _

theorem teGo_cons (clamp : Bool) (k len : ℕ) (prev : Option ℕ) (total : ℤ) (i : ℕ)
    (q : ℕ) (rest : List ℕ) :
    teGo clamp k len prev total i (q :: rest) =
      if prev = some q then teGo clamp k len prev total (i + 1) rest
      else if total + 1 = (k : ℤ) then i
      else teGo clamp k len (some q) (total + 1) (i + 1) rest := rfl

theorem teGo_val (k len : ℕ) : ∀ (l : List ℕ) (prev : Option ℕ) (total : ℤ) (i : ℕ),
    total < (k : ℤ) →
    teGo true k len prev total i l = len
    ∨ ∃ j, teGo true k len prev total i l = i + j ∧ RunStartFrom prev l j := by
  intro l
  induction l with
  | nil =>
    intro prev total i htot
    left
    simp [teGo, htot]
  | cons q rest ih =>
    intro prev total i htot
    rw [teGo_cons]
    by_cases hp : prev = some q
    · subst hp
      rw [if_pos rfl]
      rcases ih (some q) total (i + 1) htot with h | ⟨j, hval, hrs⟩
      · exact Or.inl h
      · exact Or.inr ⟨j + 1, by omega, runStartFrom_lift q rest _ j hrs⟩
    · rw [if_neg hp]
      by_cases hk : total + 1 = (k : ℤ)
      · rw [if_pos hk]
        exact Or.inr ⟨0, by omega, by simp, Or.inl ⟨rfl, by simpa using hp⟩⟩
      · rw [if_neg hk]
        rcases ih (some q) (total + 1) (i + 1) (by omega) with h | ⟨j, hval, hrs⟩
        · exact Or.inl h
        · exact Or.inr ⟨j + 1, by omega, runStartFrom_lift q rest _ j hrs⟩

theorem teGo_clamp_eq_len (k len : ℕ) : ∀ (l : List ℕ) (prev : Option ℕ) (total : ℤ)
    (i : ℕ), total + numRunsP prev l < (k : ℤ) →
    teGo true k len prev total i l = len := by
  intro l
  induction l with
  | nil =>
    intro prev total i h
    rw [numRunsP] at h
    have htot : total < (k : ℤ) := by push_cast at h; omega
    simp [teGo, htot]
  | cons q rest ih =>
    intro prev total i h
    rw [teGo_cons]
    by_cases hp : prev = some q
    · rw [if_pos hp]
      rw [numRunsP, if_pos hp] at h
      exact ih prev total (i + 1) h
    · rw [if_neg hp]
      rw [numRunsP, if_neg hp] at h
      push_cast at h
      rw [if_neg (by omega : ¬ total + 1 = (k : ℤ))]
      exact ih (some q) (total + 1) (i + 1) (by omega)

theorem teGo_corr_val (k len : ℕ) : ∀ (l : List ℕ) (prev : Option ℕ) (total : ℤ)
    (i : ℕ), total + numRunsP prev l < (k : ℤ) →
    teGo false k len prev total i l = i + l.length - 1 := by
  intro l
  induction l with
  | nil =>
    intro prev total i h
    simp [teGo]
  | cons q rest ih =>
    intro prev total i h
    rw [teGo_cons]
    by_cases hp : prev = some q
    · rw [if_pos hp]
      rw [numRunsP, if_pos hp] at h
      rw [ih prev total (i + 1) h]
      simp only [List.length_cons]
      omega
    · rw [if_neg hp]
      rw [numRunsP, if_neg hp] at h
      push_cast at h
      rw [if_neg (by omega : ¬ total + 1 = (k : ℤ))]
      rw [ih (some q) (total + 1) (i + 1) (by omega)]
      simp only [List.length_cons]
      omega

theorem teIdx_le_length (ps : List ℕ) (k : ℕ) : teIdx ps k ≤ ps.length := by
  unfold teIdx
  rcases teGo_val k ps.length ps none (-1) 0 (by omega) with h | ⟨j, hval, hj, _⟩
  · omega
  · omega

theorem teIdx_len_or_runStart (ps : List ℕ) (k : ℕ) :
    teIdx ps k = ps.length ∨ RunStart ps (teIdx ps k) := by
  unfold teIdx
  rcases teGo_val k ps.length ps none (-1) 0 (by omega) with h | ⟨j, hval, hj, hrs⟩
  · exact Or.inl h
  · right
    rcases hrs with ⟨hj0, _⟩ | ⟨hj0, hne⟩
    · subst hj0
      exact ⟨by omega, Or.inl (by omega)⟩
    · exact ⟨by omega, Or.inr (by simpa [hval] using hne)⟩

theorem trGo_cons (clamp : Bool) (len : ℕ) (prev : Option ℕ) (total : ℤ) (tmp : ℕ)
    (sizes : List ℕ) (i : ℕ) (q : ℕ) (rest : List ℕ) :
    trGo clamp len prev total tmp sizes i (q :: rest) =
      if prev = some q then trGo clamp len prev total tmp sizes (i + 1) rest
      else if total + 1 = (tmp : ℤ) then
        (match sizes with
         | [] => [i]
         | s :: srest => i :: trGo clamp len (some q) (total + 1) s srest (i + 1) rest)
      else trGo clamp len (some q) (total + 1) tmp sizes (i + 1) rest := rfl

theorem trGo_mem (clamp : Bool) (len : ℕ) : ∀ (l : List ℕ) (prev : Option ℕ) (total : ℤ)
    (tmp : ℕ) (sizes : List ℕ) (i b : ℕ), b ∈ trGo clamp len prev total tmp sizes i l →
    b = len ∨ ∃ j, b = i + j ∧ RunStartFrom prev l j := by
  intro l
  induction l with
  | nil =>
    intro prev total tmp sizes i b hb
    unfold trGo at hb
    split at hb <;> simp at hb
    exact Or.inl hb
  | cons q rest ih =>
    intro prev total tmp sizes i b hb
    rw [trGo_cons] at hb
    by_cases hp : prev = some q
    · subst hp
      rw [if_pos rfl] at hb
      rcases ih (some q) total tmp sizes (i + 1) b hb with h | ⟨j, hbj, hrs⟩
      · exact Or.inl h
      · exact Or.inr ⟨j + 1, by omega, runStartFrom_lift q rest _ j hrs⟩
    · rw [if_neg hp] at hb
      by_cases hk : total + 1 = (tmp : ℤ)
      · rw [if_pos hk] at hb
        cases sizes with
        | nil =>
          simp at hb
          exact Or.inr ⟨0, by omega, by simp, Or.inl ⟨rfl, by simpa using hp⟩⟩
        | cons s srest =>
          rcases List.mem_cons.mp hb with hbi | hb2
          · exact Or.inr ⟨0, by omega, by simp, Or.inl ⟨rfl, by simpa using hp⟩⟩
          · rcases ih (some q) (total + 1) s srest (i + 1) b hb2 with h | ⟨j, hbj, hrs⟩
            · exact Or.inl h
            · exact Or.inr ⟨j + 1, by omega, runStartFrom_lift q rest _ j hrs⟩
      · rw [if_neg hk] at hb
        rcases ih (some q) (total + 1) tmp sizes (i + 1) b hb with h | ⟨j, hbj, hrs⟩
        · exact Or.inl h
        · exact Or.inr ⟨j + 1, by omega, runStartFrom_lift q rest _ j hrs⟩

theorem trGo_pairwise (clamp : Bool) (len : ℕ) : ∀ (l : List ℕ) (prev : Option ℕ)
    (total : ℤ) (tmp : ℕ) (sizes : List ℕ) (i : ℕ), i + l.length ≤ len →
    List.Pairwise (· < ·) (trGo clamp len prev total tmp sizes i l) := by
  intro l
  induction l with
  | nil =>
    intro prev total tmp sizes i hle
    unfold trGo
    split
    · simp
    · simp
  | cons q rest ih =>
    intro prev total tmp sizes i hle
    simp only [List.length_cons] at hle
    have hle' : (i + 1) + rest.length ≤ len := by omega
    rw [trGo_cons]
    by_cases hp : prev = some q
    · rw [if_pos hp]; exact ih _ _ _ _ _ hle'
    · rw [if_neg hp]
      by_cases hk : total + 1 = (tmp : ℤ)
      · rw [if_pos hk]
        cases sizes with
        | nil => simp
        | cons s srest =>
          refine List.pairwise_cons.mpr ⟨?_, ih _ _ _ _ _ hle'⟩
          intro b hb
          rcases trGo_mem clamp len rest (some q) (total + 1) s srest (i + 1) b hb with
            h | ⟨j, hval, hj, _⟩
          · omega
          · omega
      · rw [if_neg hk]
        exact ih _ _ _ _ _ hle'

theorem trGo_clamp_split (len : ℕ) : ∀ (l : List ℕ) (prev : Option ℕ) (total : ℤ)
    (tmp : ℕ) (sizes : List ℕ) (i : ℕ),
    total < (tmp : ℤ) →
    List.Chain' (· < ·) (tmp :: sizes) →
    (∀ slast, (tmp :: sizes).getLast? = some slast →
      total + numRunsP prev l < (slast : ℤ)) →
    trGo false len prev total tmp sizes i l ++ [len] =
      trGo true len prev total tmp sizes i l := by
  intro l
  induction l with
  | nil =>
    intro prev total tmp sizes i htot hchain hlast
    unfold trGo
    simp [htot]
  | cons q rest ih =>
    intro prev total tmp sizes i htot hchain hlast
    rw [trGo_cons, trGo_cons]
    by_cases hp : prev = some q
    · rw [if_pos hp, if_pos hp]
      refine ih prev total tmp sizes (i + 1) htot hchain ?_
      intro slast hsl
      have hsl2 := hlast slast hsl
      rw [numRunsP, if_pos hp] at hsl2
      exact hsl2
    · rw [if_neg hp, if_neg hp]
      have hnr : ∀ slast, (tmp :: sizes).getLast? = some slast →
          (total + 1) + numRunsP (some q) rest < (slast : ℤ) := by
        intro slast hsl
        have hsl2 := hlast slast hsl
        rw [numRunsP, if_neg hp] at hsl2
        push_cast at hsl2
        omega
      by_cases hk : total + 1 = (tmp : ℤ)
      · rw [if_pos hk, if_pos hk]
        cases sizes with
        | nil =>
          exfalso
          have hlt := hnr tmp (by simp)
          omega
        | cons s srest =>
          have hts : tmp < s := (List.chain'_cons.mp hchain).1
          have hchain' : List.Chain' (· < ·) (s :: srest) :=
            (List.chain'_cons.mp hchain).2
          have hlast' : ∀ slast, (s :: srest).getLast? = some slast →
              (total + 1) + numRunsP (some q) rest < (slast : ℤ) := by
            intro slast hsl
            refine hnr slast ?_
            rw [List.getLast?_cons_cons]
            exact hsl
          rw [List.cons_append]
          rw [ih (some q) (total + 1) s srest (i + 1) (by omega) hchain' hlast']
      · rw [if_neg hk, if_neg hk]
        exact ih (some q) (total + 1) tmp sizes (i + 1) (by omega) hchain hnr

/- ------------------------------------------------------------------ -/
/- Claim C3                                                            -/
/- ------------------------------------------------------------------ -/

/-- Counterexample to claim C3 as stated: for the patient-contiguous sequence
[0, 1, 2] with one test patient and training sizes (1,), the boundary sequence that
do_training_test derives is [1, 2], whose last boundary is 2 and not the sequence
length 3: the claimed "last boundary equals the length" fails for the Fold/Split
Planner of do_training_test. -/
theorem C3_counterexample :
    trainingBoundaries [0, 1, 2] 1 [1] = [1, 2]
    ∧ (trainingBoundaries [0, 1, 2] 1 [1]).getLast? ≠ some ([0, 1, 2] : List ℕ).length := by
  constructor
  · decide
  · decide

/-- Claim C3, amended: every boundary sequence of the patient-level fold planner of
do_cross_validation is monotonically non-decreasing, ends exactly at the sequence
length, and has every boundary at a patient-run start or at the sequence length (so
no boundary falls strictly inside a patient run); the boundary sequence of
do_training_test is monotonically non-decreasing and also never cuts a run, but its
last boundary need not equal the sequence length. -/
theorem C3_amended_boundaries_sorted_aligned :
    (∀ (ps : List ℕ) (numPatients numFolds : ℕ),
      List.Sorted (· ≤ ·) (do_cross_validation_folds ps numPatients numFolds)
      ∧ (do_cross_validation_folds ps numPatients numFolds).getLast? = some ps.length
      ∧ ∀ b ∈ do_cross_validation_folds ps numPatients numFolds,
          b = ps.length ∨ RunStart ps b)
    ∧ (∀ (ps : List ℕ) (numPatientsTe : ℕ) (sizes : List ℕ),
      List.Sorted (· ≤ ·) (trainingBoundaries ps numPatientsTe sizes)
      ∧ ∀ b ∈ trainingBoundaries ps numPatientsTe sizes,
          b = ps.length ∨ RunStart ps b) := by
  constructor
  · intro ps numPatients numFolds
    refine ⟨?_, ?_, ?_⟩
    · show List.Pairwise (· ≤ ·)
        (cvGo ((numPatients : ℚ) / (numFolds : ℚ)) none (-1) (-1) 0 ps ++ [ps.length])
      rw [List.pairwise_append]
      refine ⟨(cvGo_pairwise _ ps none (-1) (-1) 0).imp (fun h => le_of_lt h),
        by simp, ?_⟩
      intro b hb c hc
      obtain ⟨j, hbj, hj, _⟩ := cvGo_mem _ ps none (-1) (-1) 0 b hb
      simp at hc
      omega
    · exact List.getLast?_concat _
    · intro b hb
      rw [do_cross_validation_folds, List.mem_append] at hb
      rcases hb with hb | hb
      · obtain ⟨j, hbj, hj, hrs⟩ := cvGo_mem _ ps none (-1) (-1) 0 b hb
        right
        rcases hrs with ⟨hj0, _⟩ | ⟨hj0, hne⟩
        · subst hj0
          exact ⟨by omega, Or.inl (by omega)⟩
        · exact ⟨by omega, Or.inr (by simpa [hbj] using hne)⟩
      · simp at hb
        exact Or.inl hb
  · intro ps numPatientsTe sizes
    have hte := teIdx_le_length ps numPatientsTe
    have hteRS := teIdx_len_or_runStart ps numPatientsTe
    have hdl : teIdx ps numPatientsTe + (ps.drop (teIdx ps numPatientsTe)).length
        = ps.length := by
      rw [List.length_drop]
      omega
    have trmem : ∀ b ∈ trIdx ps (teIdx ps numPatientsTe) sizes,
        b = ps.length ∨ RunStart ps b := by
      intro b hb
      unfold trIdx at hb
      cases sizes with
      | nil => simp at hb
      | cons s srest =>
        rcases trGo_mem true ps.length (ps.drop (teIdx ps numPatientsTe)) none (-1) s
          srest (teIdx ps numPatientsTe) b hb with h | ⟨j, hval, hj, hrs⟩
        · exact Or.inl h
        · rw [List.length_drop] at hj
          rcases hrs with ⟨hj0, _⟩ | ⟨hj0, hne⟩
          · subst hj0
            simpa [hval] using hteRS
          · right
            refine ⟨by omega, Or.inr ?_⟩
            rw [hval]
            have e1 : ps.getD (teIdx ps numPatientsTe + j) 0
                = (ps.drop (teIdx ps numPatientsTe)).getD j 0 := (getD_drop _ _ _).symm
            have e2 : ps.getD (teIdx ps numPatientsTe + j - 1) 0
                = (ps.drop (teIdx ps numPatientsTe)).getD (j - 1) 0 := by
              rw [getD_drop]
              congr 1
              omega
            rw [e1, e2]
            exact hne
    have trlb : ∀ b ∈ trIdx ps (teIdx ps numPatientsTe) sizes,
        teIdx ps numPatientsTe ≤ b := by
      intro b hb
      unfold trIdx at hb
      cases sizes with
      | nil => simp at hb
      | cons s srest =>
        rcases trGo_mem true ps.length (ps.drop (teIdx ps numPatientsTe)) none (-1) s
          srest (teIdx ps numPatientsTe) b hb with h | ⟨j, hval, hj, _⟩
        · omega
        · omega
    refine ⟨?_, ?_⟩
    · show List.Pairwise (· ≤ ·) (trainingBoundaries ps numPatientsTe sizes)
      rw [trainingBoundaries]
      refine List.pairwise_cons.mpr ⟨trlb, ?_⟩
      unfold trIdx
      cases sizes with
      | nil => simp
      | cons s srest =>
        exact (trGo_pairwise true ps.length (ps.drop (teIdx ps numPatientsTe)) none
          (-1) s srest (teIdx ps numPatientsTe) (by omega)).imp (fun h => le_of_lt h)
    · intro b hb
      rw [trainingBoundaries, List.mem_cons] at hb
      rcases hb with hb | hb
      · subst hb
        exact hteRS
      · exact trmem b hb

/- ------------------------------------------------------------------ -/
/- Claim C6                                                            -/
/- ------------------------------------------------------------------ -/

/-- Counterexample to claim C6 as stated: with a single one-sample patient and a
requested test-set size of 5, do_training_test clamps its test boundary to the
sequence length 1, but correct_old_runs yields 0, the last loop index, so the claimed
clamping does not hold for the split computation in correct_old_runs. -/
theorem C6_counterexample :
    teIdx [0] 5 = ([0] : List ℕ).length
    ∧ teIdxCorr [0] 5 ≠ ([0] : List ℕ).length := by
  constructor
  · decide
  · decide

/-- Claim C6, amended: when the requested test-set size reaches or exceeds the number
of patients, do_training_test clamps the test boundary to the sequence length, and
when the training sizes are strictly increasing and the last of them reaches or
exceeds the patients remaining after the test split, do_training_test ends its
training boundaries with the sequence length; neither computation fails.
correct_old_runs however does not clamp: its test boundary stays at the last scanned
index (length - 1) and its training boundaries are exactly those of do_training_test
with the final sequence-length boundary missing. -/
theorem C6_amended_clamping (ps : List ℕ) (k te : ℕ) (sizes : List ℕ)
    (hk : numRuns ps ≤ k)
    (hne : sizes ≠ [])
    (hchain : List.Chain' (· < ·) sizes)
    (hlast : ∀ slast, sizes.getLast? = some slast →
      numRunsP none (ps.drop te) ≤ slast) :
    teIdx ps k = ps.length
    ∧ teIdxCorr ps k = ps.length - 1
    ∧ (trIdx ps te sizes).getLast? = some ps.length
    ∧ trIdxCorr ps te sizes ++ [ps.length] = trIdx ps te sizes := by
  have hbound : (-1 : ℤ) + numRunsP none ps < (k : ℤ) := by
    unfold numRuns at hk
    omega
  have h1 : teIdx ps k = ps.length := teGo_clamp_eq_len k ps.length ps none (-1) 0 hbound
  have h2 : teIdxCorr ps k = ps.length - 1 := by
    have := teGo_corr_val k ps.length ps none (-1) 0 hbound
    unfold teIdxCorr
    omega
  cases sizes with
  | nil => exact absurd rfl hne
  | cons s srest =>
    have hsplit : trIdxCorr ps te (s :: srest) ++ [ps.length]
        = trIdx ps te (s :: srest) := by
      unfold trIdx trIdxCorr
      refine trGo_clamp_split ps.length (ps.drop te) none (-1) s srest te
        (by omega) hchain ?_
      intro slast hsl
      have := hlast slast hsl
      omega
    refine ⟨h1, h2, ?_, hsplit⟩
    rw [← hsplit]
    exact List.getLast?_concat _

/-- Witness for the amended C6: three samples of two patients, requested test size 5
and training sizes (1, 5). -/
theorem C6_amended_clamping_witness :
    (numRuns [1, 1, 2] ≤ 5
      ∧ ([1, 5] : List ℕ) ≠ []
      ∧ List.Chain' (· < ·) ([1, 5] : List ℕ)
      ∧ ∀ slast, ([1, 5] : List ℕ).getLast? = some slast →
          numRunsP none (([1, 1, 2] : List ℕ).drop 0) ≤ slast)
    ∧ (teIdx [1, 1, 2] 5 = ([1, 1, 2] : List ℕ).length
      ∧ teIdxCorr [1, 1, 2] 5 = ([1, 1, 2] : List ℕ).length - 1
      ∧ (trIdx [1, 1, 2] 0 [1, 5]).getLast? = some ([1, 1, 2] : List ℕ).length
      ∧ trIdxCorr [1, 1, 2] 0 [1, 5] ++ [([1, 1, 2] : List ℕ).length]
          = trIdx [1, 1, 2] 0 [1, 5]) := by
  have hk : numRuns [1, 1, 2] ≤ 5 := by decide
  have hne : ([1, 5] : List ℕ) ≠ [] := by decide
  have hchain : List.Chain' (· < ·) ([1, 5] : List ℕ) := by
    simp [List.chain'_cons]
  have hlast : ∀ slast, ([1, 5] : List ℕ).getLast? = some slast →
      numRunsP none (([1, 1, 2] : List ℕ).drop 0) ≤ slast := by
    intro slast h
    have h5 : slast = 5 := by simpa using h.symm
    subst h5
    decide
  exact ⟨⟨hk, hne, hchain, hlast⟩,
    C6_amended_clamping [1, 1, 2] 5 0 [1, 5] hk hne hchain hlast⟩

/- ------------------------------------------------------------------ -/
/- Claim C9: calculate_patients_label lemmas                           -/
/- ------------------------------------------------------------------ -/

theorem cplGo_eq_runsGo : ∀ (rest : List (ℚ × ℕ)) (pv : ℕ) (acc : ℚ) (n : ℕ)
    (cur : List (ℚ × ℕ)), acc = (cur.map Prod.fst).sum → n = cur.length →
    cplGo pv acc n rest = (runsGo pv cur rest).map runMean := by
  intro rest
  induction rest with
  | nil =>
    intro pv acc n cur hacc hn
    simp only [cplGo, runsGo, List.map_cons, List.map_nil]
    rw [runMean, List.map_reverse, List.sum_reverse, List.length_reverse, hacc, hn]
  | cons a rest ih =>
    intro pv acc n cur hacc hn
    obtain ⟨yv, q⟩ := a
    simp only [cplGo, runsGo]
    by_cases hq : q = pv
    · rw [if_pos hq, if_pos hq]
      refine ih pv (acc + yv) (n + 1) ((yv, q) :: cur) ?_ ?_
      · simp [hacc]
        ring
      · simp [hn]
    · rw [if_neg hq, if_neg hq]
      rw [List.map_cons]
      congr 1
      · rw [runMean, List.map_reverse, List.sum_reverse, List.length_reverse, hacc, hn]
      · refine ih q yv 1 [(yv, q)] ?_ ?_ <;> simp

theorem runsGo_flatten : ∀ (rest : List (ℚ × ℕ)) (pv : ℕ) (cur : List (ℚ × ℕ)),
    (runsGo pv cur rest).flatten = cur.reverse ++ rest := by
  intro rest
  induction rest with
  | nil => intro pv cur; simp [runsGo]
  | cons a rest ih =>
    intro pv cur
    obtain ⟨yv, q⟩ := a
    simp only [runsGo]
    by_cases hq : q = pv
    · rw [if_pos hq, ih]
      simp
    · rw [if_neg hq]
      simp only [List.flatten_cons, ih]
      simp

theorem runsGo_runs_wellformed : ∀ (rest : List (ℚ × ℕ)) (pv : ℕ) (cur : List (ℚ × ℕ)),
    (∀ a ∈ cur, a.2 = pv) → cur ≠ [] →
    ∀ r ∈ runsGo pv cur rest, r ≠ [] ∧ ∀ a ∈ r, ∀ b ∈ r, a.2 = b.2 := by
  intro rest
  induction rest with
  | nil =>
    intro pv cur hall hne r hr
    simp [runsGo] at hr
    subst hr
    refine ⟨by simpa using hne, ?_⟩
    intro a ha b hb
    rw [List.mem_reverse] at ha hb
    rw [hall a ha, hall b hb]
  | cons a rest ih =>
    intro pv cur hall hne r hr
    obtain ⟨yv, q⟩ := a
    simp only [runsGo] at hr
    by_cases hq : q = pv
    · rw [if_pos hq] at hr
      refine ih pv ((yv, q) :: cur) ?_ (by simp) r hr
      intro b hb
      rcases List.mem_cons.mp hb with hb | hb
      · subst hb; exact hq
      · exact hall b hb
    · rw [if_neg hq] at hr
      rcases List.mem_cons.mp hr with hr | hr
      · subst hr
        refine ⟨by simpa using hne, ?_⟩
        intro a ha b hb
        rw [List.mem_reverse] at ha hb
        rw [hall a ha, hall b hb]
      · exact ih q [(yv, q)] (by simp) (by simp) r hr

theorem runsGo_head_patient : ∀ (rest : List (ℚ × ℕ)) (pv : ℕ) (cur : List (ℚ × ℕ)),
    cur ≠ [] → ∃ r t, runsGo pv cur rest = r :: t ∧ r.head? = cur.reverse.head? := by
  intro rest
  induction rest with
  | nil =>
    intro pv cur hne
    exact ⟨cur.reverse, [], rfl, rfl⟩
  | cons a rest ih =>
    intro pv cur hne
    obtain ⟨yv, q⟩ := a
    simp only [runsGo]
    by_cases hq : q = pv
    · rw [if_pos hq]
      obtain ⟨r, t, heq, hhead⟩ := ih pv ((yv, q) :: cur) (by simp)
      refine ⟨r, t, heq, ?_⟩
      rw [hhead, List.reverse_cons, List.head?_append]
      cases hc : cur.reverse.head? with
      | none =>
        exfalso
        rw [List.head?_eq_none_iff] at hc
        exact hne (by simpa using hc)
      | some z => rfl
    · rw [if_neg hq]
      exact ⟨cur.reverse, _, rfl, rfl⟩

theorem runsGo_chain : ∀ (rest : List (ℚ × ℕ)) (pv : ℕ) (cur : List (ℚ × ℕ)),
    (∀ a ∈ cur, a.2 = pv) → cur ≠ [] →
    List.Chain' (fun r1 r2 => r1.head?.map Prod.snd ≠ r2.head?.map Prod.snd)
      (runsGo pv cur rest) := by
  intro rest
  induction rest with
  | nil =>
    intro pv cur hall hne
    simp [runsGo]
  | cons a rest ih =>
    intro pv cur hall hne
    obtain ⟨yv, q⟩ := a
    simp only [runsGo]
    by_cases hq : q = pv
    · rw [if_pos hq]
      refine ih pv ((yv, q) :: cur) ?_ (by simp)
      intro b hb
      rcases List.mem_cons.mp hb with hb | hb
      · subst hb; exact hq
      · exact hall b hb
    · rw [if_neg hq]
      obtain ⟨r, t, heq, hhead⟩ := runsGo_head_patient rest q [(yv, q)] (by simp)
      rw [heq]
      refine List.chain'_cons.mpr ⟨?_, by rw [← heq]; exact ih q [(yv, q)] (by simp) (by simp)⟩
      rw [hhead]
      obtain ⟨z, hz, hzeq⟩ : ∃ z, cur.reverse.head? = some z ∧ z.2 = pv := by
        cases hc : cur.reverse.head? with
        | none =>
          exfalso
          rw [List.head?_eq_none_iff] at hc
          exact hne (by simpa using hc)
        | some z =>
          refine ⟨z, rfl, hall z ?_⟩
          have := List.mem_of_mem_head? hc
          rwa [List.mem_reverse] at this
      rw [hz]
      intro hcontra
      apply hq
      have hzq : (some z.2 : Option ℕ) = some q := by simpa using hcontra
      rw [← Option.some.inj hzq, hzeq]

/-- Claim C9: for every non-empty pair of equal-length label/patient sequences with
contiguous equal patient ids, calculate_patients_label returns exactly one value per
contiguous patient run, in run order, and each value is the arithmetic mean of the
labels of that run.  patientRuns is the chunking of the zipped input into its
maximal contiguous same-patient runs: the runs are non-empty, carry a single patient
each, concatenate back to the zipped input, and consecutive runs have different
patients. -/
theorem C9_calculate_patients_label_means (slicesLabels : List ℚ) (patients : List ℕ)
    (hne : slicesLabels ≠ [])
    (hlen : slicesLabels.length = patients.length)
    (hcont : noRevisit patients = true) :
    calculate_patients_label slicesLabels patients
      = (patientRuns (slicesLabels.zip patients)).map runMean
    ∧ (patientRuns (slicesLabels.zip patients)).flatten = slicesLabels.zip patients
    ∧ (∀ r ∈ patientRuns (slicesLabels.zip patients),
        r ≠ [] ∧ ∀ a ∈ r, ∀ b ∈ r, a.2 = b.2)
    ∧ List.Chain' (fun r1 r2 => r1.head?.map Prod.snd ≠ r2.head?.map Prod.snd)
        (patientRuns (slicesLabels.zip patients)) := by
  cases hz : slicesLabels.zip patients with
  | nil =>
    exfalso
    have hl := congrArg List.length hz
    rw [List.length_zip] at hl
    simp only [List.length_nil] at hl
    rw [Nat.min_eq_zero_iff] at hl
    rcases hl with h | h
    · exact hne (List.length_eq_zero.mp h)
    · exact hne (List.length_eq_zero.mp (by omega))
  | cons a rest =>
    obtain ⟨yv, q⟩ := a
    constructor
    · rw [calculate_patients_label, hz, patientRuns]
      exact cplGo_eq_runsGo rest q yv 1 [(yv, q)] (by simp) (by simp)
    refine ⟨?_, ?_, ?_⟩
    · rw [patientRuns, runsGo_flatten]
      simp
    · intro r hr
      rw [patientRuns] at hr
      exact runsGo_runs_wellformed rest q [(yv, q)] (by simp) (by simp) r hr
    · rw [patientRuns]
      exact runsGo_chain rest q [(yv, q)] (by simp) (by simp)

/-- Witness for C9: four slices of two patients with labels 0,1 and 1,0 give the
per-patient average labels 1/2 and 1/2. -/
theorem C9_calculate_patients_label_means_witness :
    (([0, 1, 1, 0] : List ℚ) ≠ []
      ∧ ([0, 1, 1, 0] : List ℚ).length = ([5, 5, 6, 6] : List ℕ).length
      ∧ noRevisit [5, 5, 6, 6] = true)
    ∧ calculate_patients_label [0, 1, 1, 0] [5, 5, 6, 6]
        = (patientRuns (([0, 1, 1, 0] : List ℚ).zip [5, 5, 6, 6])).map runMean := by
  have h1 : ([0, 1, 1, 0] : List ℚ) ≠ [] := by simp
  have h2 : ([0, 1, 1, 0] : List ℚ).length = ([5, 5, 6, 6] : List ℕ).length := by simp
  have h3 : noRevisit [5, 5, 6, 6] = true := by decide
  exact ⟨⟨h1, h2, h3⟩,
    (C9_calculate_patients_label_means [0, 1, 1, 0] [5, 5, 6, 6] h1 h2 h3).1⟩

/- ------------------------------------------------------------------ -/
/- Claim C2: list and multiset helper lemmas                           -/
/- ------------------------------------------------------------------ -/

theorem length_filter_range_getD (l : List ℕ) (c : ℕ) :
    ((List.range l.length).filter (fun i => l.getD i 2 = c)).length = l.count c := by
  induction l with
  | nil => simp
  | cons x t ih =>
    have hmap : (((List.range t.length).map Nat.succ).filter
        (fun i => decide ((x :: t).getD i 2 = c))).length
        = ((List.range t.length).filter (fun i => decide (t.getD i 2 = c))).length := by
      rw [List.filter_map, List.length_map]
      congr 1
    rw [List.length_cons, List.range_succ_eq_map, List.filter_cons]
    by_cases hx : x = c
    · subst hx
      rw [if_pos (by simp)]
      simp only [List.length_cons, hmap, ih]
      simp [List.count_cons]
    · rw [if_neg (by simp [hx])]
      rw [hmap, ih]
      simp [List.count_cons, Ne.symm hx]

theorem count_pair_le (l : List ℕ) : l.count 0 + l.count 1 ≤ l.length := by
  induction l with
  | nil => simp
  | cons a t ih =>
    rw [List.count_cons, List.count_cons, List.length_cons]
    rcases a with _ | a
    · simp
      omega
    · rcases a with _ | a
      · simp
        omega
      · simp
        omega

theorem count_01_all (l : List ℕ) (h : l.count 0 + l.count 1 = l.length) :
    ∀ x ∈ l, x = 0 ∨ x = 1 := by
  induction l with
  | nil => simp
  | cons a t ih =>
    rw [List.count_cons, List.count_cons, List.length_cons] at h
    have hle := count_pair_le t
    rcases a with _ | a
    · intro x hx
      rcases List.mem_cons.mp hx with hx | hx
      · exact Or.inl hx
      · refine ih ?_ x hx
        simp at h
        omega
    · rcases a with _ | a
      · intro x hx
        rcases List.mem_cons.mp hx with hx | hx
        · exact Or.inr hx
        · refine ih ?_ x hx
          simp at h
          omega
      · exfalso
        simp at h
        omega

theorem filter01_partition (lab : List ℕ)
    (ha : lab.count 0 + lab.count 1 = lab.length) :
    (((List.range lab.length).filter (fun i => lab.getD i 2 = 0))
      ++ ((List.range lab.length).filter (fun i => lab.getD i 2 = 1))).Perm
      (List.range lab.length) := by
  have h01 := count_01_all lab ha
  have hcongr : (List.range lab.length).filter (fun i => lab.getD i 2 = 1)
      = (List.range lab.length).filter (fun i => !(decide (lab.getD i 2 = 0))) := by
    apply List.filter_congr
    intro i hi
    rw [List.mem_range] at hi
    have hmem : lab.getD i 2 ∈ lab := by
      rw [List.getD_eq_getElem lab 2 hi]
      exact List.getElem_mem hi
    rcases h01 _ hmem with h | h
    · rw [List.getD_eq_getElem?_getD] at h
      simp [h]
    · rw [List.getD_eq_getElem?_getD] at h
      simp [h]
  rw [hcongr]
  exact List.filter_append_perm _ _

theorem map_getD_range (l : List ℕ) (d : ℕ) :
    (List.range l.length).map (fun j => l.getD j d) = l := by
  induction l with
  | nil => simp
  | cons x t ih =>
    rw [List.length_cons, List.range_succ_eq_map, List.map_cons, List.map_map]
    congr 1

/-- Components of zip4R project back to the four inputs when lengths agree. -/
theorem zip4R_unzip (ps : List ℕ) : ∀ (xs ms : List ℕ) (ys : List (ℕ × ℕ)),
    xs.length = ps.length → ys.length = ps.length → ms.length = ps.length →
    (zip4R xs ys ms ps).map R4.x = xs ∧ (zip4R xs ys ms ps).map R4.y = ys
    ∧ (zip4R xs ys ms ps).map R4.m = ms ∧ (zip4R xs ys ms ps).map R4.p = ps := by
  induction ps with
  | nil =>
    intro xs ms ys hx hy hm
    rw [List.length_nil, List.length_eq_zero] at hx hy hm
    subst hx; subst hy; subst hm
    simp [zip4R]
  | cons p pt ih =>
    intro xs ms ys hx hy hm
    cases xs with
    | nil => simp at hx
    | cons a xt =>
      cases ys with
      | nil => simp at hy
      | cons b yt =>
        cases ms with
        | nil => simp at hm
        | cons c mt =>
          simp only [List.length_cons, Nat.add_right_cancel_iff] at hx hy hm
          obtain ⟨e1, e2, e3, e4⟩ := ih xt mt yt hx hy hm
          simp [zip4R, e1, e2, e3, e4]

theorem zip4R_length (ps : List ℕ) : ∀ (xs ms : List ℕ) (ys : List (ℕ × ℕ)),
    xs.length = ps.length → ys.length = ps.length → ms.length = ps.length →
    (zip4R xs ys ms ps).length = ps.length := by
  intro xs ms ys hx hy hm
  have h := (zip4R_unzip ps xs ms ys hx hy hm).2.2.2
  calc (zip4R xs ys ms ps).length
      = ((zip4R xs ys ms ps).map R4.p).length := (List.length_map _ _).symm
    _ = ps.length := by rw [h]

theorem zip4R_of_maps (pk : List ℕ) (f1 : ℕ → ℕ) (f2 : ℕ → ℕ × ℕ) (f3 f4 : ℕ → ℕ) :
    zip4R (pk.map f1) (pk.map f2) (pk.map f3) (pk.map f4)
      = pk.map (fun j => R4.mk (f1 j) (f2 j) (f3 j) (f4 j)) := by
  induction pk with
  | nil => rfl
  | cons a t ih => simp only [List.map_cons, zip4R, ih]

theorem zip4R_eq_map_range (ps : List ℕ) : ∀ (xs ms : List ℕ) (ys : List (ℕ × ℕ)),
    xs.length = ps.length → ys.length = ps.length → ms.length = ps.length →
    (List.range ps.length).map (fun j =>
      R4.mk (xs.getD j 0) (ys.getD j (0, 0)) (ms.getD j 0) (ps.getD j 0))
      = zip4R xs ys ms ps := by
  induction ps with
  | nil =>
    intro xs ms ys hx hy hm
    rw [List.length_nil, List.length_eq_zero] at hx hy hm
    subst hx; subst hy; subst hm
    simp [zip4R]
  | cons p pt ih =>
    intro xs ms ys hx hy hm
    cases xs with
    | nil => simp at hx
    | cons a xt =>
      cases ys with
      | nil => simp at hy
      | cons b yt =>
        cases ms with
        | nil => simp at hm
        | cons c mt =>
          simp only [List.length_cons, Nat.add_right_cancel_iff] at hx hy hm
          rw [List.length_cons, List.range_succ_eq_map, List.map_cons, List.map_map]
          simp only [zip4R]
          congr 1
          exact ih xt mt yt hx hy hm

theorem zip4R_append (ds : List ℕ) : ∀ (as cs : List ℕ) (bs : List (ℕ × ℕ))
    (as' cs' : List ℕ) (bs' : List (ℕ × ℕ)) (ds' : List ℕ),
    as.length = ds.length → bs.length = ds.length → cs.length = ds.length →
    zip4R (as ++ as') (bs ++ bs') (cs ++ cs') (ds ++ ds')
      = zip4R as bs cs ds ++ zip4R as' bs' cs' ds' := by
  induction ds with
  | nil =>
    intro as cs bs as' cs' bs' ds' hx hy hm
    rw [List.length_nil, List.length_eq_zero] at hx hy hm
    subst hx; subst hy; subst hm
    simp [zip4R]
  | cons d dt ih =>
    intro as cs bs as' cs' bs' ds' hx hy hm
    cases as with
    | nil => simp at hx
    | cons a at2 =>
      cases bs with
      | nil => simp at hy
      | cons b bt =>
        cases cs with
        | nil => simp at hm
        | cons c ct =>
          simp only [List.length_cons, Nat.add_right_cancel_iff] at hx hy hm
          simp only [List.cons_append, zip4R]
          congr 1
          exact ih at2 ct bt as' cs' bs' ds' hx hy hm

theorem zip4R_drop (n : ℕ) : ∀ (ps xs ms : List ℕ) (ys : List (ℕ × ℕ)),
    xs.length = ps.length → ys.length = ps.length → ms.length = ps.length →
    zip4R (xs.drop n) (ys.drop n) (ms.drop n) (ps.drop n)
      = (zip4R xs ys ms ps).drop n := by
  induction n with
  | zero => intro ps xs ms ys hx hy hm; simp
  | succ n ih =>
    intro ps xs ms ys hx hy hm
    cases ps with
    | nil =>
      rw [List.length_nil, List.length_eq_zero] at hx hy hm
      subst hx; subst hy; subst hm
      simp [zip4R]
    | cons p pt =>
      cases xs with
      | nil => simp at hx
      | cons a xt =>
        cases ys with
        | nil => simp at hy
        | cons b yt =>
          cases ms with
          | nil => simp at hm
          | cons c mt =>
            simp only [List.length_cons, Nat.add_right_cancel_iff] at hx hy hm
            simp only [List.drop_succ_cons, zip4R]
            exact ih pt xt mt yt hx hy hm

theorem zip4R_take (n : ℕ) : ∀ (ps xs ms : List ℕ) (ys : List (ℕ × ℕ)),
    xs.length = ps.length → ys.length = ps.length → ms.length = ps.length →
    zip4R (xs.take n) (ys.take n) (ms.take n) (ps.take n)
      = (zip4R xs ys ms ps).take n := by
  induction n with
  | zero => intro ps xs ms ys hx hy hm; simp [zip4R]
  | succ n ih =>
    intro ps xs ms ys hx hy hm
    cases ps with
    | nil =>
      rw [List.length_nil, List.length_eq_zero] at hx hy hm
      subst hx; subst hy; subst hm
      simp [zip4R]
    | cons p pt =>
      cases xs with
      | nil => simp at hx
      | cons a xt =>
        cases ys with
        | nil => simp at hy
        | cons b yt =>
          cases ms with
          | nil => simp at hm
          | cons c mt =>
            simp only [List.length_cons, Nat.add_right_cancel_iff] at hx hy hm
            simp only [List.take_succ_cons, zip4R]
            rw [ih pt xt mt yt hx hy hm]

theorem coe_flatten_map (pk : List ℕ) (f : ℕ → List R4) :
    (↑((pk.map f).flatten) : Multiset R4) = (pk.map (fun j => (↑(f j) : Multiset R4))).sum := by
  induction pk with
  | nil => simp
  | cons a t ih =>
    simp only [List.map_cons, List.flatten_cons, List.sum_cons, ← ih]
    rfl

theorem multiset_map_sum_mono (s t : Multiset ℕ) (h : s ≤ t) (g : ℕ → Multiset R4) :
    (s.map g).sum ≤ (t.map g).sum := by
  obtain ⟨u, rfl⟩ := Multiset.le_iff_exists_add.mp h
  rw [Multiset.map_add, Multiset.sum_add]
  exact le_add_of_nonneg_right (Multiset.zero_le _)

theorem list_map_sum_mono (l : List ℕ) (f g : ℕ → Multiset R4)
    (h : ∀ j ∈ l, f j ≤ g j) : (l.map f).sum ≤ (l.map g).sum := by
  induction l with
  | nil => simp
  | cons a t ih =>
    simp only [List.map_cons, List.sum_cons]
    exact add_le_add (h a (by simp)) (ih (fun j hj => h j (by simp [hj])))

theorem sum_filter_patient_le (qs : List ℕ) (hnd : qs.Nodup) : ∀ (W : List R4),
    ((qs.map (fun q => (↑(W.filter (fun s => s.p = q)) : Multiset R4))).sum) ≤ ↑W := by
  induction qs with
  | nil => intro W; simp
  | cons q qt ih =>
    intro W
    rw [List.map_cons, List.sum_cons]
    have hqt : qt.Nodup := (List.nodup_cons.mp hnd).2
    have hq : q ∉ qt := (List.nodup_cons.mp hnd).1
    have step1 : ∀ q' ∈ qt, (↑(W.filter (fun s => s.p = q')) : Multiset R4)
        = ↑((W.filter (fun s => !(decide (s.p = q)))).filter (fun s => s.p = q')) := by
      intro q' hq'
      congr 1
      rw [List.filter_filter]
      apply List.filter_congr
      intro s _
      by_cases hsp : s.p = q'
      · have hne : ¬ s.p = q := by
          rw [hsp]
          intro hc
          exact hq (hc ▸ hq')
        have hqq : ¬ q' = q := fun hc => hq (hc ▸ hq')
        simp [hsp, hne, hqq]
      · simp [hsp]
    have hmapeq : (qt.map (fun q' => (↑(W.filter (fun s => s.p = q')) : Multiset R4))).sum
        = (qt.map (fun q' => (↑((W.filter (fun s => !(decide (s.p = q)))).filter
            (fun s => s.p = q')) : Multiset R4))).sum := by
      congr 1
      exact List.map_congr_left step1
    rw [hmapeq]
    have hb := ih hqt (W.filter (fun s => !(decide (s.p = q))))
    calc (↑(W.filter (fun s => s.p = q)) : Multiset R4)
        + (qt.map (fun q' => (↑((W.filter (fun s => !(decide (s.p = q)))).filter
            (fun s => s.p = q')) : Multiset R4))).sum
        ≤ ↑(W.filter (fun s => s.p = q)) + ↑(W.filter (fun s => !(decide (s.p = q)))) :=
          add_le_add_left hb _
      _ = ↑(W.filter (fun s => s.p = q) ++ W.filter (fun s => !(decide (s.p = q)))) := rfl
      _ = ↑W := Multiset.coe_eq_coe.mpr (List.filter_append_perm _ W)

/- ------------------------------------------------------------------ -/
/- Claim C2: greedy selection loop lemmas                              -/
/- ------------------------------------------------------------------ -/

/-- When all label-0 positions are consumed but label-1 positions remain, the greedy
balance comparison never selects label 0. -/
theorem balStep_false_at_C0 (C0 C1 n1 : ℕ) (hn1 : n1 < C1) :
    balStep ((C0 : ℚ) / ((C0 : ℚ) + C1)) ((C1 : ℚ) / ((C0 : ℚ) + C1)) C0 n1 = false := by
  unfold balStep
  rw [decide_eq_false_iff_not]
  have hL : (0 : ℚ) < (C0 : ℚ) + C1 := by
    have : (0 : ℚ) < (C1 : ℚ) := by exact_mod_cast Nat.pos_of_ne_zero (by omega)
    positivity
  have e1 : ((C0 : ℚ) + 1) * ((C1 : ℚ) / ((C0 : ℚ) + C1))
        - (n1 : ℚ) * ((C0 : ℚ) / ((C0 : ℚ) + C1))
      = (((C0 : ℚ) + 1) * C1 - (n1 : ℚ) * C0) / ((C0 : ℚ) + C1) := by ring
  have e2 : (C0 : ℚ) * ((C1 : ℚ) / ((C0 : ℚ) + C1))
        - ((n1 : ℚ) + 1) * ((C0 : ℚ) / ((C0 : ℚ) + C1))
      = ((C0 : ℚ) * C1 - ((n1 : ℚ) + 1) * C0) / ((C0 : ℚ) + C1) := by ring
  rw [e1, e2, abs_div, abs_div, abs_of_pos hL, div_le_div_iff_of_pos_right hL]
  have hn1' : (n1 : ℚ) + 1 ≤ (C1 : ℚ) := by exact_mod_cast hn1
  have hc0 : (0 : ℚ) ≤ (C0 : ℚ) := by positivity
  have hA : (0 : ℚ) ≤ ((C0 : ℚ) + 1) * C1 - (n1 : ℚ) * C0 := by nlinarith
  have hB : (0 : ℚ) ≤ (C0 : ℚ) * C1 - ((n1 : ℚ) + 1) * C0 := by nlinarith
  rw [abs_of_nonneg hA, abs_of_nonneg hB]
  intro hc
  nlinarith

/-- When all label-1 positions are consumed but label-0 positions remain, the greedy
balance comparison selects label 0. -/
theorem balStep_true_at_C1 (C0 C1 n0 : ℕ) (hn0 : n0 < C0) :
    balStep ((C0 : ℚ) / ((C0 : ℚ) + C1)) ((C1 : ℚ) / ((C0 : ℚ) + C1)) n0 C1 = true := by
  unfold balStep
  rw [decide_eq_true_eq]
  have hL : (0 : ℚ) < (C0 : ℚ) + C1 := by
    have : (0 : ℚ) < (C0 : ℚ) := by exact_mod_cast Nat.pos_of_ne_zero (by omega)
    positivity
  have e1 : ((n0 : ℚ) + 1) * ((C1 : ℚ) / ((C0 : ℚ) + C1))
        - (C1 : ℚ) * ((C0 : ℚ) / ((C0 : ℚ) + C1))
      = (((n0 : ℚ) + 1) * C1 - (C1 : ℚ) * C0) / ((C0 : ℚ) + C1) := by ring
  have e2 : (n0 : ℚ) * ((C1 : ℚ) / ((C0 : ℚ) + C1))
        - ((C1 : ℚ) + 1) * ((C0 : ℚ) / ((C0 : ℚ) + C1))
      = ((n0 : ℚ) * C1 - ((C1 : ℚ) + 1) * C0) / ((C0 : ℚ) + C1) := by ring
  rw [e1, e2, abs_div, abs_div, abs_of_pos hL, div_le_div_iff_of_pos_right hL]
  have hn0' : (n0 : ℚ) + 1 ≤ (C0 : ℚ) := by exact_mod_cast hn0
  have hc1 : (0 : ℚ) ≤ (C1 : ℚ) := by positivity
  have hA : ((n0 : ℚ) + 1) * C1 - (C1 : ℚ) * C0 ≤ 0 := by nlinarith
  have hB : (n0 : ℚ) * C1 - ((C1 : ℚ) + 1) * C0 ≤ 0 := by nlinarith
  rw [abs_of_nonpos hA, abs_of_nonpos hB]
  nlinarith

theorem pickLoop_succ (c0 c1 : ℚ) (idxZ idxO : List ℕ) (d steps n0 n1 : ℕ) :
    pickLoop c0 c1 idxZ idxO d (steps + 1) n0 n1 =
      if balStep c0 c1 n0 n1 then
        (idxZ.getD n0 d :: (pickLoop c0 c1 idxZ idxO d steps (n0 + 1) n1).1,
         (pickLoop c0 c1 idxZ idxO d steps (n0 + 1) n1).2)
      else
        (idxO.getD n1 d :: (pickLoop c0 c1 idxZ idxO d steps n0 (n1 + 1)).1,
         (pickLoop c0 c1 idxZ idxO d steps n0 (n1 + 1)).2) := rfl

/-- In the unique-patient branch, the selection loop run to completion picks every
position exactly once: its picks are a permutation of the queue contents. -/
theorem pickLoop_fst_perm (idxZ idxO : List ℕ) (d : ℕ) : ∀ (steps n0 n1 : ℕ),
    n0 + n1 + steps = idxZ.length + idxO.length →
    n0 ≤ idxZ.length → n1 ≤ idxO.length →
    ((pickLoop ((idxZ.length : ℚ) / ((idxZ.length : ℚ) + idxO.length))
        ((idxO.length : ℚ) / ((idxZ.length : ℚ) + idxO.length)) idxZ idxO d steps n0 n1).1).Perm
      (idxZ.drop n0 ++ idxO.drop n1) := by
  intro steps
  induction steps with
  | zero =>
    intro n0 n1 hsum h0 h1
    have h0' : n0 = idxZ.length := by omega
    have h1' : n1 = idxO.length := by omega
    simp [pickLoop, List.drop_eq_nil_of_le, h0'.ge, h1'.ge]
  | succ steps ih =>
    intro n0 n1 hsum h0 h1
    rw [pickLoop_succ]
    cases hstep : balStep ((idxZ.length : ℚ) / ((idxZ.length : ℚ) + idxO.length))
        ((idxO.length : ℚ) / ((idxZ.length : ℚ) + idxO.length)) n0 n1 with
    | true =>
      rw [if_pos rfl]
      have hlt : n0 < idxZ.length := by
        rcases Nat.lt_or_ge n0 idxZ.length with h | h
        · exact h
        · exfalso
          have hn0 : n0 = idxZ.length := by omega
          have hn1 : n1 < idxO.length := by omega
          rw [hn0] at hstep
          rw [balStep_false_at_C0 idxZ.length idxO.length n1 hn1] at hstep
          exact Bool.false_ne_true hstep
      rw [List.getD_eq_getElem idxZ d hlt]
      rw [List.drop_eq_getElem_cons hlt, List.cons_append]
      exact List.Perm.cons _ (ih (n0 + 1) n1 (by omega) (by omega) h1)
    | false =>
      rw [if_neg (by simp)]
      have hlt : n1 < idxO.length := by
        rcases Nat.lt_or_ge n1 idxO.length with h | h
        · exact h
        · exfalso
          have hn1 : n1 = idxO.length := by omega
          have hn0 : n0 < idxZ.length := by omega
          rw [hn1] at hstep
          rw [balStep_true_at_C1 idxZ.length idxO.length n0 hn0] at hstep
          exact absurd hstep (by simp)
      rw [List.getD_eq_getElem idxO d hlt]
      rw [List.drop_eq_getElem_cons hlt]
      refine List.Perm.trans (List.Perm.cons _ (ih n0 (n1 + 1) (by omega) h0 (by omega)))
        ?_
      exact (List.perm_middle).symm

/-- The picks of the selection loop, as a multiset, stay below the two queues plus one
junk default per step. -/
theorem pickLoop_fst_coe_le (c0 c1 : ℚ) (idxZ idxO : List ℕ) (d : ℕ) :
    ∀ (steps n0 n1 : ℕ),
    (↑(pickLoop c0 c1 idxZ idxO d steps n0 n1).1 : Multiset ℕ)
      ≤ ↑(idxZ.drop n0) + ↑(idxO.drop n1) + Multiset.replicate steps d := by
  intro steps
  induction steps with
  | zero =>
    intro n0 n1
    simp [pickLoop]
  | succ steps ih =>
    intro n0 n1
    rw [pickLoop_succ]
    have hrepl : Multiset.replicate steps d ≤ Multiset.replicate (steps + 1) d :=
      (Multiset.replicate_le_replicate d).mpr (Nat.le_succ steps)
    cases hstep : balStep c0 c1 n0 n1 with
    | true =>
      rw [if_pos rfl]
      by_cases hlt : n0 < idxZ.length
      · calc (↑(idxZ.getD n0 d :: (pickLoop c0 c1 idxZ idxO d steps (n0 + 1) n1).1)
              : Multiset ℕ)
            = idxZ.getD n0 d ::ₘ ↑(pickLoop c0 c1 idxZ idxO d steps (n0 + 1) n1).1 := rfl
          _ ≤ idxZ.getD n0 d ::ₘ
              (↑(idxZ.drop (n0 + 1)) + ↑(idxO.drop n1) + Multiset.replicate steps d) :=
            Multiset.cons_le_cons _ (ih (n0 + 1) n1)
          _ = ↑(idxZ.drop n0) + ↑(idxO.drop n1) + Multiset.replicate steps d := by
            rw [List.getD_eq_getElem idxZ d hlt, List.drop_eq_getElem_cons hlt]
            simp only [← Multiset.cons_coe, ← Multiset.singleton_add]
            abel
          _ ≤ ↑(idxZ.drop n0) + ↑(idxO.drop n1) + Multiset.replicate (steps + 1) d :=
            add_le_add_left hrepl _
      · have hz : idxZ.drop n0 = [] := List.drop_eq_nil_of_le (by omega)
        have hz' : idxZ.drop (n0 + 1) = [] := List.drop_eq_nil_of_le (by omega)
        have hd : idxZ.getD n0 d = d := List.getD_eq_default idxZ d (by omega)
        calc (↑(idxZ.getD n0 d :: (pickLoop c0 c1 idxZ idxO d steps (n0 + 1) n1).1)
              : Multiset ℕ)
            = idxZ.getD n0 d ::ₘ ↑(pickLoop c0 c1 idxZ idxO d steps (n0 + 1) n1).1 := rfl
          _ ≤ idxZ.getD n0 d ::ₘ
              (↑(idxZ.drop (n0 + 1)) + ↑(idxO.drop n1) + Multiset.replicate steps d) :=
            Multiset.cons_le_cons _ (ih (n0 + 1) n1)
          _ = ↑(idxZ.drop n0) + ↑(idxO.drop n1) + Multiset.replicate (steps + 1) d := by
            rw [hz, hz', hd, Multiset.replicate_succ]
            simp only [Multiset.coe_nil, ← Multiset.singleton_add]
            abel
    | false =>
      rw [if_neg (by simp)]
      by_cases hlt : n1 < idxO.length
      · calc (↑(idxO.getD n1 d :: (pickLoop c0 c1 idxZ idxO d steps n0 (n1 + 1)).1)
              : Multiset ℕ)
            = idxO.getD n1 d ::ₘ ↑(pickLoop c0 c1 idxZ idxO d steps n0 (n1 + 1)).1 := rfl
          _ ≤ idxO.getD n1 d ::ₘ
              (↑(idxZ.drop n0) + ↑(idxO.drop (n1 + 1)) + Multiset.replicate steps d) :=
            Multiset.cons_le_cons _ (ih n0 (n1 + 1))
          _ = ↑(idxZ.drop n0) + ↑(idxO.drop n1) + Multiset.replicate steps d := by
            rw [List.getD_eq_getElem idxO d hlt, List.drop_eq_getElem_cons hlt]
            simp only [← Multiset.cons_coe, ← Multiset.singleton_add]
            abel
          _ ≤ ↑(idxZ.drop n0) + ↑(idxO.drop n1) + Multiset.replicate (steps + 1) d :=
            add_le_add_left hrepl _
      · have hz : idxO.drop n1 = [] := List.drop_eq_nil_of_le (by omega)
        have hz' : idxO.drop (n1 + 1) = [] := List.drop_eq_nil_of_le (by omega)
        have hd : idxO.getD n1 d = d := List.getD_eq_default idxO d (by omega)
        calc (↑(idxO.getD n1 d :: (pickLoop c0 c1 idxZ idxO d steps n0 (n1 + 1)).1)
              : Multiset ℕ)
            = idxO.getD n1 d ::ₘ ↑(pickLoop c0 c1 idxZ idxO d steps n0 (n1 + 1)).1 := rfl
          _ ≤ idxO.getD n1 d ::ₘ
              (↑(idxZ.drop n0) + ↑(idxO.drop (n1 + 1)) + Multiset.replicate steps d) :=
            Multiset.cons_le_cons _ (ih n0 (n1 + 1))
          _ = ↑(idxZ.drop n0) + ↑(idxO.drop n1) + Multiset.replicate (steps + 1) d := by
            rw [hz, hz', hd, Multiset.replicate_succ]
            simp only [Multiset.coe_nil, ← Multiset.singleton_add]
            abel

/-- Flattening parallel per-slice extractions commutes with zip4R. -/
theorem zip4R_flatten_slices (ps xs ms : List ℕ) (ys : List (ℕ × ℕ))
    (hx : xs.length = ps.length) (hy : ys.length = ps.length) (hm : ms.length = ps.length) :
    ∀ (sl : List (ℕ × ℕ)),
    zip4R ((sl.map (fun s => (xs.drop s.1).take s.2)).flatten)
          ((sl.map (fun s => (ys.drop s.1).take s.2)).flatten)
          ((sl.map (fun s => (ms.drop s.1).take s.2)).flatten)
          ((sl.map (fun s => (ps.drop s.1).take s.2)).flatten)
      = (sl.map (fun s => ((zip4R xs ys ms ps).drop s.1).take s.2)).flatten := by
  intro sl
  induction sl with
  | nil => rfl
  | cons a t ih =>
    simp only [List.map_cons, List.flatten_cons]
    rw [zip4R_append ((ps.drop a.1).take a.2) ((xs.drop a.1).take a.2)
        ((ms.drop a.1).take a.2) ((ys.drop a.1).take a.2) _ _ _ _
        (by simp [hx]) (by simp [hy]) (by simp [hm])]
    rw [ih]
    congr 1
    rw [← zip4R_drop a.1 ps xs ms ys hx hy hm]
    rw [← zip4R_take a.2 (ps.drop a.1) (xs.drop a.1) (ms.drop a.1) (ys.drop a.1)
        (by simp [hx]) (by simp [hy]) (by simp [hm])]

/-- Parallel per-slice extractions from equal-length lists flatten to equal lengths. -/
theorem length_flatten_slices {α β : Type} (xs : List α) (ps : List β)
    (hxp : xs.length = ps.length) (sl : List (ℕ × ℕ)) :
    ((sl.map (fun s => (xs.drop s.1).take s.2)).flatten).length
      = ((sl.map (fun s => (ps.drop s.1).take s.2)).flatten).length := by
  rw [List.length_flatten, List.length_flatten, List.map_map, List.map_map]
  congr 1
  apply List.map_eq_map_iff.mpr
  intro s _
  simp [Function.comp, hxp]

/-- The unique-patient branch emits a permutation of the zipped input rows, with all
four outputs of one common length. -/
theorem reorderUnique_perm (xs ms ps : List ℕ) (ys : List (ℕ × ℕ))
    (hx : xs.length = ps.length) (hy : ys.length = ps.length) (hm : ms.length = ps.length)
    (ox om op : List ℕ) (oy : List (ℕ × ℕ)) (n0 n1 : ℕ)
    (hout : reorderUnique xs ys ms ps = some (ox, oy, om, op, n0, n1)) :
    (zip4R ox oy om op).Perm (zip4R xs ys ms ps)
    ∧ ox.length = op.length ∧ oy.length = op.length ∧ om.length = op.length := by
  simp only [reorderUnique] at hout
  split at hout
  case isFalse => exact absurd hout (by simp)
  case isTrue ha =>
    simp only [Option.some.injEq, Prod.mk.injEq] at hout
    obtain ⟨hox, hoy, hom, hop, -, -⟩ := hout
    subst hox; subst hoy; subst hom; subst hop
    set labels := ys.map Prod.snd with hlab
    set idxZ := (List.range labels.length).filter (fun i => labels.getD i 2 = 0) with hiz
    set idxO := (List.range labels.length).filter (fun i => labels.getD i 2 = 1) with hio
    have hz : idxZ.length = labels.count 0 := by
      rw [hiz]; exact length_filter_range_getD labels 0
    have ho1 : idxO.length = labels.count 1 := by
      rw [hio]; exact length_filter_range_getD labels 1
    have hLtot : labels.length = idxZ.length + idxO.length := by omega
    have hcast : (labels.length : ℚ) = (idxZ.length : ℚ) + (idxO.length : ℚ) := by
      rw [hLtot]; push_cast; ring
    have hc0 : ((labels.count 0 : ℚ) / (labels.length : ℚ))
        = ((idxZ.length : ℚ) / ((idxZ.length : ℚ) + (idxO.length : ℚ))) := by
      rw [← hz, hcast]
    have hc1 : ((labels.count 1 : ℚ) / (labels.length : ℚ))
        = ((idxO.length : ℚ) / ((idxZ.length : ℚ) + (idxO.length : ℚ))) := by
      rw [← ho1, hcast]
    rw [hc0, hc1]
    have hperm := pickLoop_fst_perm idxZ idxO 0 labels.length 0 0 (by omega)
      (Nat.zero_le _) (Nat.zero_le _)
    simp only [List.drop_zero] at hperm
    have hZO : (idxZ ++ idxO).Perm (List.range labels.length) := by
      rw [hiz, hio]; exact filter01_partition labels ha
    have hrange := hperm.trans hZO
    rw [zip4R_of_maps]
    have hlps : labels.length = ps.length := by rw [hlab, List.length_map]; exact hy
    have hfin : (List.range labels.length).map (fun j =>
        R4.mk (xs.getD j 0) (ys.getD j (0, 0)) (ms.getD j 0) (ps.getD j 0))
        = zip4R xs ys ms ps := by
      rw [hlps]
      exact zip4R_eq_map_range ps xs ms ys hx hy hm
    refine ⟨?_, by simp, by simp, by simp⟩
    have hmapped := hrange.map (fun j =>
        R4.mk (xs.getD j 0) (ys.getD j (0, 0)) (ms.getD j 0) (ps.getD j 0))
    rw [hfin] at hmapped
    exact hmapped

/-- A patient run slice — a take of a takeWhile-measured length after any drop — is,
as a multiset, below the rows carrying that patient id. -/
theorem slice_le_filter (ps xs ms : List ℕ) (ys : List (ℕ × ℕ))
    (hx : xs.length = ps.length) (hy : ys.length = ps.length) (hm : ms.length = ps.length)
    (i0 p0 : ℕ) :
    (↑(((zip4R xs ys ms ps).drop i0).take
        (((ps.drop i0).takeWhile (fun q => q == p0)).length)) : Multiset R4)
      ≤ ↑((zip4R xs ys ms ps).filter (fun s => s.p = p0)) := by
  have hWp : (zip4R xs ys ms ps).map R4.p = ps := (zip4R_unzip ps xs ms ys hx hy hm).2.2.2
  set W := zip4R xs ys ms ps with hW
  set rlen := ((ps.drop i0).takeWhile (fun q => q == p0)).length with hrl
  have hmem : ∀ s ∈ (W.drop i0).take rlen, s.p = p0 := by
    intro s hs
    have hsp : s.p ∈ ((W.drop i0).take rlen).map R4.p := List.mem_map_of_mem _ hs
    have hmap : ((W.drop i0).take rlen).map R4.p = (ps.drop i0).take rlen := by
      rw [List.map_take, List.map_drop, hWp]
    rw [hmap] at hsp
    have htw : (ps.drop i0).take rlen = (ps.drop i0).takeWhile (fun q => q == p0) := by
      rw [hrl]
      exact (List.prefix_iff_eq_take.mp (List.takeWhile_prefix _)).symm
    rw [htw] at hsp
    simpa using List.mem_takeWhile_imp hsp
  have hsub : List.Sublist ((W.drop i0).take rlen) W :=
    (List.take_sublist _ _).trans (List.drop_sublist _ _)
  have hfe : ((W.drop i0).take rlen).filter (fun s => s.p = p0) = (W.drop i0).take rlen :=
    List.filter_eq_self.mpr (fun s hs => by simp [hmem s hs])
  have hsubf : List.Sublist (((W.drop i0).take rlen).filter (fun s => s.p = p0))
      (W.filter (fun s => s.p = p0)) := List.Sublist.filter _ hsub
  rw [hfe] at hsubf
  exact Multiset.coe_le.mpr hsubf.subperm

/-- The flattened run slices selected by the repeated-patient branch stay, as a
multiset, below the zipped input rows: each picked index contributes at most the rows
of one distinct patient, junk picks contribute nothing, and distinct patients have
disjoint row sets. -/
theorem picks_slices_le (ps xs ms : List ℕ) (ys : List (ℕ × ℕ))
    (hx : xs.length = ps.length) (hy : ys.length = ps.length) (hm : ms.length = ps.length)
    (u idxsFirst : List ℕ) (hnd : u.Nodup) (hiflen : idxsFirst.length = u.length)
    (pk : List ℕ)
    (hpk : (↑pk : Multiset ℕ) ≤ ↑(List.range u.length)
        + Multiset.replicate u.length u.length) :
    (pk.map (fun j => (↑(((zip4R xs ys ms ps).drop (idxsFirst.getD j ps.length)).take
        (((ps.drop (idxsFirst.getD j ps.length)).takeWhile
          (fun q => q == u.getD j 0)).length)) : Multiset R4))).sum
      ≤ ↑(zip4R xs ys ms ps) := by
  set W := zip4R xs ys ms ps with hW
  set g : ℕ → Multiset R4 := fun j =>
    (↑((W.drop (idxsFirst.getD j ps.length)).take
        (((ps.drop (idxsFirst.getD j ps.length)).takeWhile
          (fun q => q == u.getD j 0)).length)) : Multiset R4) with hg
  have hg0 : g u.length = 0 := by
    simp only [hg]
    rw [List.getD_eq_default _ _ (by omega : idxsFirst.length ≤ u.length)]
    simp
  have h1 : (pk.map g).sum ≤ ((List.range u.length).map g).sum := by
    have h1a := multiset_map_sum_mono _ _ hpk g
    rw [Multiset.map_add, Multiset.sum_add, Multiset.map_replicate, Multiset.sum_replicate,
      hg0, smul_zero, add_zero] at h1a
    exact h1a
  have h2 : ((List.range u.length).map g).sum
      ≤ ((List.range u.length).map
          (fun j => (↑(W.filter (fun s => s.p = u.getD j 0)) : Multiset R4))).sum := by
    apply list_map_sum_mono
    intro j hj
    simp only [hg]
    rw [hW]
    exact slice_le_filter ps xs ms ys hx hy hm _ _
  have h3 : ((List.range u.length).map
      (fun j => (↑(W.filter (fun s => s.p = u.getD j 0)) : Multiset R4))).sum ≤ ↑W := by
    have hmm2 : (List.range u.length).map
        (fun j => (↑(W.filter (fun s => s.p = u.getD j 0)) : Multiset R4))
        = u.map (fun q => (↑(W.filter (fun s => s.p = q)) : Multiset R4)) := by
      conv_rhs => rw [← map_getD_range u 0]
      rw [List.map_map]
      rfl
    rw [hmm2]
    exact sum_filter_patient_le u hnd W
  exact le_trans (le_trans h1 h2) h3

/-- The repeated-patient branch emits a permutation of the zipped input rows, with
all four outputs of one common length. -/
theorem reorderRuns_perm (xs ms ps : List ℕ) (ys : List (ℕ × ℕ))
    (hx : xs.length = ps.length) (hy : ys.length = ps.length) (hm : ms.length = ps.length)
    (ox om op : List ℕ) (oy : List (ℕ × ℕ)) (n0 n1 : ℕ)
    (hout : reorderRuns xs ys ms ps = some (ox, oy, om, op, n0, n1)) :
    (zip4R ox oy om op).Perm (zip4R xs ys ms ps)
    ∧ ox.length = op.length ∧ oy.length = op.length ∧ om.length = op.length := by
  simp only [reorderRuns] at hout
  split at hout
  case isFalse => exact absurd hout (by simp)
  case isTrue ha =>
    split at hout
    case isFalse => exact absurd hout (by simp)
    case isTrue hlen =>
      simp only [Option.some.injEq, Prod.mk.injEq] at hout
      obtain ⟨hox, hoy, hom, hop, -, -⟩ := hout
      subst hox; subst hoy; subst hom; subst hop
      set u := npUnique ps with hu
      set idxsFirst := u.map (fun q => ps.indexOf q) with hif
      set patLabels := idxsFirst.map (fun j => (ys.map Prod.snd).getD j 2) with hpl
      set idxZ := (List.range u.length).filter (fun j => patLabels.getD j 2 = 0) with hiz
      set idxO := (List.range u.length).filter (fun j => patLabels.getD j 2 = 1) with hio
      set pk := (pickLoop ((patLabels.count 0 : ℚ) / (u.length : ℚ))
          ((patLabels.count 1 : ℚ) / (u.length : ℚ)) idxZ idxO u.length u.length 0 0).1
        with hpk
      set slices := pk.map (fun j =>
        (idxsFirst.getD j ps.length,
         ((ps.drop (idxsFirst.getD j ps.length)).takeWhile
           (fun q => q == u.getD j 0)).length)) with hsl
      have e1 := length_flatten_slices xs ps hx slices
      have e2 := length_flatten_slices ys ps hy slices
      have e3 := length_flatten_slices ms ps hm slices
      have hplen : patLabels.length = u.length := by rw [hpl, hif]; simp
      have hiflen : idxsFirst.length = u.length := by rw [hif]; simp
      have ha' : patLabels.count 0 + patLabels.count 1 = patLabels.length := by omega
      have hZO : (idxZ ++ idxO).Perm (List.range u.length) := by
        rw [hiz, hio, ← hplen]
        exact filter01_partition patLabels ha'
      have hcoeZO : (↑idxZ + ↑idxO : Multiset ℕ) = ↑(List.range u.length) :=
        Multiset.coe_eq_coe.mpr hZO
      have hpks : (↑pk : Multiset ℕ) ≤ ↑(List.range u.length)
          + Multiset.replicate u.length u.length := by
        have h := pickLoop_fst_coe_le ((patLabels.count 0 : ℚ) / (u.length : ℚ))
          ((patLabels.count 1 : ℚ) / (u.length : ℚ)) idxZ idxO u.length u.length 0 0
        simp only [List.drop_zero] at h
        rw [hpk, ← hcoeZO]
        exact h
      have hnd : u.Nodup := by rw [hu]; exact npUnique_nodup ps
      have hmain := picks_slices_le ps xs ms ys hx hy hm u idxsFirst hnd hiflen pk hpks
      have hcoe : (↑(zip4R ((slices.map (fun sl => (xs.drop sl.1).take sl.2)).flatten)
          ((slices.map (fun sl => (ys.drop sl.1).take sl.2)).flatten)
          ((slices.map (fun sl => (ms.drop sl.1).take sl.2)).flatten)
          ((slices.map (fun sl => (ps.drop sl.1).take sl.2)).flatten)) : Multiset R4)
          = (pk.map (fun j => (↑(((zip4R xs ys ms ps).drop (idxsFirst.getD j ps.length)).take
              (((ps.drop (idxsFirst.getD j ps.length)).takeWhile
                (fun q => q == u.getD j 0)).length)) : Multiset R4))).sum := by
        rw [zip4R_flatten_slices ps xs ms ys hx hy hm slices, hsl, List.map_map]
        rw [coe_flatten_map]
        rfl
      have hWlen : (zip4R xs ys ms ps).length = ps.length := zip4R_length ps xs ms ys hx hy hm
      refine ⟨?_, e1, e2, e3⟩
      apply Multiset.coe_eq_coe.mp
      apply Multiset.eq_of_le_of_card_le
      · rw [hcoe]
        exact hmain
      · rw [Multiset.coe_card, Multiset.coe_card]
        rw [hWlen, zip4R_length _ _ _ _ e1 e2 e3, hlen]

/-- Projecting zip4R rows to (patient id, label) pairs recovers the zip of the patient
array with the second one-hot component. -/
theorem zip4R_map_py (ps : List ℕ) : ∀ (xs ms : List ℕ) (ys : List (ℕ × ℕ)),
    xs.length = ps.length → ys.length = ps.length → ms.length = ps.length →
    (zip4R xs ys ms ps).map (fun s => (s.p, s.y.snd)) = ps.zip (ys.map Prod.snd) := by
  induction ps with
  | nil =>
    intro xs ms ys hx hy hm
    rw [List.length_nil, List.length_eq_zero] at hx hy hm
    subst hx; subst hy; subst hm
    simp [zip4R]
  | cons p pt ih =>
    intro xs ms ys hx hy hm
    cases xs with
    | nil => simp at hx
    | cons a xt =>
      cases ys with
      | nil => simp at hy
      | cons b yt =>
        cases ms with
        | nil => simp at hm
        | cons c mt =>
          simp only [List.length_cons, Nat.add_right_cancel_iff] at hx hy hm
          simp only [zip4R, List.map_cons, List.zip_cons_cons]
          congr 1
          exact ih xt mt yt hx hy hm

/-- C2: for parallel input arrays of one common length, whenever
reorder_maintaining_label_balance returns an output (its asserts hold), the output
rows are a permutation of the input rows; in particular the multiset of
(patient id, label) pairs is unchanged and the total label-0 and label-1 counts are
preserved. -/
theorem C2_reorder_is_permutation (xs ms ps : List ℕ) (ys : List (ℕ × ℕ))
    (hx : xs.length = ps.length) (hy : ys.length = ps.length) (hm : ms.length = ps.length)
    (ox om op : List ℕ) (oy : List (ℕ × ℕ)) (n0 n1 : ℕ)
    (hout : reorder_maintaining_label_balance xs ys ms ps = some (ox, oy, om, op, n0, n1)) :
    (zip4R ox oy om op).Perm (zip4R xs ys ms ps)
    ∧ (op.zip (oy.map Prod.snd)).Perm (ps.zip (ys.map Prod.snd))
    ∧ (oy.map Prod.snd).count 0 = (ys.map Prod.snd).count 0
    ∧ (oy.map Prod.snd).count 1 = (ys.map Prod.snd).count 1 := by
  have hbr : (zip4R ox oy om op).Perm (zip4R xs ys ms ps)
      ∧ ox.length = op.length ∧ oy.length = op.length ∧ om.length = op.length := by
    unfold reorder_maintaining_label_balance at hout
    split at hout
    · exact reorderUnique_perm xs ms ps ys hx hy hm ox om op oy n0 n1 hout
    · exact reorderRuns_perm xs ms ps ys hx hy hm ox om op oy n0 n1 hout
  obtain ⟨hperm, e1, e2, e3⟩ := hbr
  have hpairs : (op.zip (oy.map Prod.snd)).Perm (ps.zip (ys.map Prod.snd)) := by
    have h := hperm.map (fun s => (s.p, s.y.snd))
    rw [zip4R_map_py op ox om oy e1 e2 e3, zip4R_map_py ps xs ms ys hx hy hm] at h
    exact h
  have hyperm : oy.Perm ys := by
    have h := hperm.map R4.y
    rw [(zip4R_unzip op ox om oy e1 e2 e3).2.1, (zip4R_unzip ps xs ms ys hx hy hm).2.1] at h
    exact h
  have hlabperm := hyperm.map Prod.snd
  exact ⟨hperm, hpairs, hlabperm.count_eq 0, hlabperm.count_eq 1⟩

/-- Witness for C2 at a concrete three-patient input: the reorderer returns an output
there and the pair-permutation and label-count conclusions hold. -/
theorem C2_reorder_is_permutation_witness :
    reorder_maintaining_label_balance [10, 11, 12] [(1, 0), (0, 1), (1, 0)] [7, 8, 9] [1, 2, 3]
      = some ([10, 11, 12], [(1, 0), (0, 1), (1, 0)], [7, 8, 9], [1, 2, 3], 2, 1)
    ∧ (([1, 2, 3].zip (([(1, 0), (0, 1), (1, 0)] : List (ℕ × ℕ)).map Prod.snd)).Perm
        ([1, 2, 3].zip (([(1, 0), (0, 1), (1, 0)] : List (ℕ × ℕ)).map Prod.snd))
       ∧ (([(1, 0), (0, 1), (1, 0)] : List (ℕ × ℕ)).map Prod.snd).count 0
          = (([(1, 0), (0, 1), (1, 0)] : List (ℕ × ℕ)).map Prod.snd).count 0) := by
  have hcomp : reorder_maintaining_label_balance [10, 11, 12] [(1, 0), (0, 1), (1, 0)]
      [7, 8, 9] [1, 2, 3]
      = some ([10, 11, 12], [(1, 0), (0, 1), (1, 0)], [7, 8, 9], [1, 2, 3], 2, 1) := by
    norm_num [reorder_maintaining_label_balance, reorderUnique, pickLoop, balStep,
      npUnique, sortNat, insertSorted, List.dedup, List.range_succ, abs]
  have h := C2_reorder_is_permutation [10, 11, 12] [7, 8, 9] [1, 2, 3]
    [(1, 0), (0, 1), (1, 0)] (by decide) (by decide) (by decide)
    [10, 11, 12] [7, 8, 9] [1, 2, 3] [(1, 0), (0, 1), (1, 0)] 2 1 hcomp
  exact ⟨hcomp, h.2.1, h.2.2.1⟩

/- ------------------------------------------------------------------ -/
/- Claim C1: contiguity and capping loop lemmas                        -/
/- ------------------------------------------------------------------ -/

/-- Elements behind a blocker a that differs from q survive dropWhile (· == q). -/
theorem mem_dropWhile_append (q a r : ℕ) : ∀ (t l2 : List ℕ), a ≠ q → r ∈ l2 →
    r ∈ (t ++ a :: l2).dropWhile (fun x => x == q) := by
  intro t
  induction t with
  | nil =>
    intro l2 ha hr
    rw [List.nil_append, List.dropWhile_cons]
    rw [if_neg (by simp [ha])]
    exact List.mem_cons_of_mem a hr
  | cons b t ih =>
    intro l2 ha hr
    rw [List.cons_append, List.dropWhile_cons]
    by_cases hb : b = q
    · rw [if_pos (by simp [hb])]
      exact ih l2 ha hr
    · rw [if_neg (by simp [hb])]
      exact List.mem_cons_of_mem b (List.mem_append_right t (List.mem_cons_of_mem a hr))

/-- In a no-revisit sequence, a patient seen before a different patient a never
reappears after a. -/
theorem noRevisit_split : ∀ (l1 l2 : List ℕ) (a p : ℕ),
    noRevisit (l1 ++ a :: l2) = true → p ∈ l1 → p ≠ a → p ∉ l2 := by
  intro l1
  induction l1 with
  | nil =>
    intro l2 a p _ hp _
    exact absurd hp (List.not_mem_nil p)
  | cons q t ih =>
    intro l2 a p hno hp hpa
    rw [List.cons_append, noRevisit, Bool.and_eq_true] at hno
    obtain ⟨hall, hrest⟩ := hno
    rcases List.mem_cons.mp hp with rfl | hpt
    · intro hpl2
      have hmem := mem_dropWhile_append p a p t l2 (Ne.symm hpa) hpl2
      have := List.all_eq_true.mp hall _ hmem
      simp at this
    · exact ih l2 a p hrest hpt hpa

/-- From a loop state satisfying the invariant whose remaining tail holds no admitted
patient, the caps and per-patient completeness of the output follow. -/
theorem limitGo_terminal (k n0 n1 : ℕ) (i0 i1 : Option ℕ) (news : List S4)
    (ht ht2 : List ℕ) (done tail : List S4)
    (hinv : LimInv k n0 n1 i0 i1 news ht ht2 done)
    (htail : ∀ q ∈ ht2, ∀ t ∈ tail, t.p ≠ q) :
    ((news.filter (fun s => s.y = 0)).map S4.p).toFinset.card ≤ k
    ∧ ((news.filter (fun s => s.y = 1)).map S4.p).toFinset.card ≤ k
    ∧ ∀ q ∈ news.map S4.p,
        news.filter (fun s => s.p = q) = (done ++ tail).filter (fun s => s.p = q) := by
  refine ⟨?_, ?_, ?_⟩
  · cases hi : i0 with
    | none => exact le_trans (le_of_eq (hinv.hI5 hi).1) (hinv.hI5 hi).2
    | some j => exact (hinv.hI6 (by simp [hi])).1
  · cases hi : i1 with
    | none => exact le_trans (le_of_eq (hinv.hI7 hi).1) (hinv.hI7 hi).2
    | some j => exact (hinv.hI8 (by simp [hi])).1
  · intro q hq
    obtain ⟨s, hs, hsp⟩ := List.mem_map.mp hq
    have hsf : s ∈ done.filter (fun t => decide (t.p ∈ ht2)) := by
      rw [← hinv.hI1]; exact hs
    have hq2 : q ∈ ht2 := by
      have hd := List.of_mem_filter hsf
      simp only [decide_eq_true_eq] at hd
      rw [← hsp]; exact hd
    rw [List.filter_append]
    have htl : tail.filter (fun s => s.p = q) = [] := by
      rw [List.filter_eq_nil_iff]
      intro t htm
      simp [htail q hq2 t htm]
    rw [htl, List.append_nil, hinv.hI1, List.filter_filter]
    apply List.filter_congr
    intro t htd
    by_cases htq : t.p = q
    · simp [htq, hq2]
    · simp [htq]

/-- After a fresh patient arrives, no admitted patient occurs in the rest of a
no-revisit sequence. -/
theorem tail_fresh (done : List S4) (s : S4) (rest : List S4) (ht ht2 : List ℕ)
    (hno : noRevisit ((done ++ s :: rest).map S4.p) = true)
    (hI2 : ∀ r ∈ ht2, r ∈ ht)
    (hI4 : ∀ r ∈ ht, ∃ t, t ∈ done ∧ t.p = r)
    (hfresh : s.p ∉ ht) :
    ∀ q ∈ ht2, ∀ t ∈ s :: rest, t.p ≠ q := by
  intro q hq t htm
  have hqht := hI2 q hq
  obtain ⟨u, hud, hup⟩ := hI4 q hqht
  have hqs : q ≠ s.p := fun h => hfresh (h ▸ hqht)
  have hql1 : q ∈ done.map S4.p := hup ▸ List.mem_map_of_mem S4.p hud
  have hmap : (done ++ s :: rest).map S4.p = done.map S4.p ++ s.p :: rest.map S4.p := by
    simp
  rw [hmap] at hno
  have hnot := noRevisit_split (done.map S4.p) (rest.map S4.p) s.p q hno hql1 hqs
  rcases List.mem_cons.mp htm with rfl | htr
  · exact Ne.symm hqs
  · intro h
    exact hnot (h ▸ List.mem_map_of_mem S4.p htr)

/-- Appending a sample whose label differs leaves the label filter unchanged. -/
theorem filter_label_append_ne (news : List S4) (s : S4) (c : ℕ) (h : s.y ≠ c) :
    (news ++ [s]).filter (fun t => t.y = c) = news.filter (fun t => t.y = c) := by
  rw [List.filter_append]
  simp [h]

/-- Appending a sample of the filtered label appends it to the label filter. -/
theorem filter_label_append_eq (news : List S4) (s : S4) (c : ℕ) (h : s.y = c) :
    (news ++ [s]).filter (fun t => t.y = c) = news.filter (fun t => t.y = c) ++ [s] := by
  rw [List.filter_append]
  simp [h]

/-- Appending a sample of an already represented patient does not change the number
of distinct patients of its label. -/
theorem card_label_append_of_mem (news : List S4) (s : S4) (c : ℕ) (hy : s.y = c)
    (hmem : s.p ∈ (news.filter (fun t => t.y = c)).map S4.p) :
    (((news ++ [s]).filter (fun t => t.y = c)).map S4.p).toFinset.card
      = ((news.filter (fun t => t.y = c)).map S4.p).toFinset.card := by
  rw [filter_label_append_eq news s c hy, List.map_append]
  congr 1
  rw [List.toFinset_append]
  have h2 : (List.map S4.p [s]).toFinset = {s.p} := by simp
  have hus : ∀ (f : Finset ℕ) (a : ℕ), f ∪ {a} = insert a f := by
    intro f a
    ext x
    simp [or_comm]
  rw [h2, hus]
  exact Finset.insert_eq_self.mpr (List.mem_toFinset.mpr hmem)

/-- Appending a sample of a new patient raises the number of distinct patients of its
label by one. -/
theorem card_label_append_of_not_mem (news : List S4) (s : S4) (c : ℕ) (hy : s.y = c)
    (hnm : s.p ∉ (news.filter (fun t => t.y = c)).map S4.p) :
    (((news ++ [s]).filter (fun t => t.y = c)).map S4.p).toFinset.card
      = ((news.filter (fun t => t.y = c)).map S4.p).toFinset.card + 1 := by
  rw [filter_label_append_eq news s c hy, List.map_append]
  rw [List.toFinset_append]
  have h2 : (List.map S4.p [s]).toFinset = {s.p} := by simp
  have hus : ∀ (f : Finset ℕ) (a : ℕ), f ∪ {a} = insert a f := by
    intro f a
    ext x
    simp [or_comm]
  rw [h2, hus]
  exact Finset.card_insert_of_not_mem (fun h => hnm (List.mem_toFinset.mp h))

/-- An admitted patient whose samples all carry label c is represented in the label-c
part of the output. -/
theorem patient_label_rep (news done : List S4) (ht ht2 : List ℕ) (q c : ℕ)
    (hI1 : news = done.filter (fun s => decide (s.p ∈ ht2)))
    (hI2 : ∀ r ∈ ht2, r ∈ ht)
    (hI4 : ∀ r ∈ ht, ∃ s, s ∈ done ∧ s.p = r)
    (hq : q ∈ ht2)
    (hlab : ∀ t ∈ done, t.p = q → t.y = c) :
    q ∈ (news.filter (fun t => t.y = c)).map S4.p := by
  obtain ⟨t, htd, htp⟩ := hI4 q (hI2 q hq)
  have htn : t ∈ news := by
    rw [hI1]
    exact List.mem_filter.mpr ⟨htd, by simp [htp, hq]⟩
  have hty : t.y = c := hlab t htd htp
  have htf : t ∈ news.filter (fun t => t.y = c) := List.mem_filter.mpr ⟨htn, by simp [hty]⟩
  exact htp ▸ List.mem_map_of_mem S4.p htf

/-- A fresh patient is not represented in the output. -/
theorem fresh_not_rep (news done : List S4) (ht ht2 : List ℕ) (c : ℕ) (s : S4)
    (hI1 : news = done.filter (fun t => decide (t.p ∈ ht2)))
    (hI2 : ∀ r ∈ ht2, r ∈ ht) (hfresh : s.p ∉ ht) :
    s.p ∉ (news.filter (fun t => t.y = c)).map S4.p := by
  intro hmem
  obtain ⟨t, htm, htp⟩ := List.mem_map.mp hmem
  have htn : t ∈ news := List.mem_of_mem_filter htm
  rw [hI1] at htn
  have hd := List.of_mem_filter htn
  simp only [decide_eq_true_eq] at hd
  exact hfresh (htp ▸ hI2 t.p hd)

/-- Appending a rejected sample leaves the admitted filter unchanged. -/
theorem filter_done_append_reject (done : List S4) (s : S4) (ht2 : List ℕ)
    (h : s.p ∉ ht2) :
    (done ++ [s]).filter (fun t => decide (t.p ∈ ht2))
      = done.filter (fun t => decide (t.p ∈ ht2)) := by
  rw [List.filter_append]
  simp [h]

/-- Appending an admitted sample of an already admitted patient appends it to the
admitted filter. -/
theorem filter_done_append_kept (done : List S4) (s : S4) (ht2 : List ℕ)
    (h : s.p ∈ ht2) :
    (done ++ [s]).filter (fun t => decide (t.p ∈ ht2))
      = done.filter (fun t => decide (t.p ∈ ht2)) ++ [s] := by
  rw [List.filter_append]
  simp [h]

/-- Appending a freshly admitted sample: the admitted filter over the grown set picks
the old samples unchanged plus the new sample. -/
theorem filter_done_insert (done : List S4) (s : S4) (ht ht2 : List ℕ)
    (hI3 : ∀ t ∈ done, t.p ∈ ht) (hfresh : s.p ∉ ht) :
    (done ++ [s]).filter (fun t => decide (t.p ∈ ht2.insert s.p))
      = done.filter (fun t => decide (t.p ∈ ht2)) ++ [s] := by
  rw [List.filter_append]
  have h1 : done.filter (fun t => decide (t.p ∈ ht2.insert s.p))
      = done.filter (fun t => decide (t.p ∈ ht2)) := by
    apply List.filter_congr
    intro t htd
    have hne : t.p ≠ s.p := fun h => hfresh (h ▸ hI3 t htd)
    simp [List.mem_insert_iff, hne]
  rw [h1]
  simp [List.mem_insert_self]

/-- One capping-loop step: seen patient, admitted sample. -/
theorem limitGo_step_seen_adm (k n0 n1 : ℕ) (i0 i1 : Option ℕ) (news : List S4)
    (ht ht2 : List ℕ) (i : ℕ) (s : S4) (rest : List S4)
    (hmem : s.p ∈ ht)
    (hadm : (s.y = 0 ∧ i0 = none) ∨ (s.y = 1 ∧ i1 = none) ∨ s.p ∈ ht2) :
    limitGo true k n0 n1 i0 i1 news ht ht2 i (s :: rest)
      = limitGo true k n0 n1 i0 i1 (news ++ [s]) ht (ht2.insert s.p) (i + 1) rest := by
  simp only [limitGo]
  rw [if_pos hadm, if_pos hadm, if_pos hmem]

/-- One capping-loop step: seen patient, rejected sample. -/
theorem limitGo_step_seen_rej (k n0 n1 : ℕ) (i0 i1 : Option ℕ) (news : List S4)
    (ht ht2 : List ℕ) (i : ℕ) (s : S4) (rest : List S4)
    (hmem : s.p ∈ ht)
    (hadm : ¬((s.y = 0 ∧ i0 = none) ∨ (s.y = 1 ∧ i1 = none) ∨ s.p ∈ ht2)) :
    limitGo true k n0 n1 i0 i1 news ht ht2 i (s :: rest)
      = limitGo true k n0 n1 i0 i1 news ht ht2 (i + 1) rest := by
  simp only [limitGo]
  rw [if_neg hadm, if_neg hadm, if_pos hmem]

/-- One capping-loop step: fresh label-0 patient exhausting the cap with the label-1
cut already set breaks out of the loop. -/
theorem limitGo_step_pop0_break (k n0 n1 : ℕ) (news : List S4)
    (ht ht2 : List ℕ) (i : ℕ) (s : S4) (rest : List S4) (j : ℕ)
    (hmem : s.p ∉ ht) (hy : s.y = 0) (hn : n0 + 1 = k + 1) :
    limitGo true k n0 n1 none (some j) news ht ht2 i (s :: rest) = news := by
  simp only [limitGo]
  rw [if_neg hmem, if_pos hy, if_pos hn]
  rw [if_pos (⟨by simp, by simp, trivial⟩ :
    some i ≠ none ∧ (some j : Option ℕ) ≠ none ∧ True)]
  rw [if_pos (Or.inl ⟨hy, trivial⟩ :
    s.y = 0 ∧ True ∨ s.y = 1 ∧ (some j : Option ℕ) = none ∨ s.p ∈ ht2)]
  exact List.dropLast_concat

/-- One capping-loop step: fresh label-0 patient exhausting the cap with the label-1
cut still open records the cut and removes the sample again. -/
theorem limitGo_step_pop0 (k n0 n1 : ℕ) (news : List S4)
    (ht ht2 : List ℕ) (i : ℕ) (s : S4) (rest : List S4)
    (hmem : s.p ∉ ht) (hfresh2 : s.p ∉ ht2)
    (hy : s.y = 0) (hn : n0 + 1 = k + 1) :
    limitGo true k n0 n1 none none news ht ht2 i (s :: rest)
      = limitGo true k (n0 + 1) n1 (some i) none news (ht.insert s.p) ht2 (i + 1) rest := by
  simp only [limitGo]
  rw [if_neg hmem, if_pos hy, if_pos hn]
  rw [if_neg (by simp : ¬(some i ≠ none ∧ (none : Option ℕ) ≠ none ∧ True))]
  rw [if_pos (Or.inl ⟨hy, trivial⟩ :
    s.y = 0 ∧ True ∨ s.y = 1 ∧ True ∨ s.p ∈ ht2),
    if_pos (Or.inl ⟨hy, trivial⟩ :
    s.y = 0 ∧ True ∨ s.y = 1 ∧ True ∨ s.p ∈ ht2)]
  rw [List.dropLast_concat]
  rw [List.insert_of_not_mem hfresh2, List.erase_cons_head]

/-- One capping-loop step: fresh label-0 patient below the cap is admitted. -/
theorem limitGo_step_adm0 (k n0 n1 : ℕ) (i1 : Option ℕ) (news : List S4)
    (ht ht2 : List ℕ) (i : ℕ) (s : S4) (rest : List S4)
    (hmem : s.p ∉ ht) (hy : s.y = 0) (hn : ¬(n0 + 1 = k + 1)) :
    limitGo true k n0 n1 none i1 news ht ht2 i (s :: rest)
      = limitGo true k (n0 + 1) n1 none i1 (news ++ [s]) (ht.insert s.p)
          (ht2.insert s.p) (i + 1) rest := by
  simp only [limitGo]
  rw [if_neg hmem, if_pos hy, if_neg hn]
  rw [if_neg (by simp : ¬((none : Option ℕ) ≠ none ∧ i1 ≠ none ∧ True))]
  rw [if_pos (Or.inl ⟨hy, trivial⟩ :
    s.y = 0 ∧ True ∨ s.y = 1 ∧ i1 = none ∨ s.p ∈ ht2),
    if_pos (Or.inl ⟨hy, trivial⟩ :
    s.y = 0 ∧ True ∨ s.y = 1 ∧ i1 = none ∨ s.p ∈ ht2)]

/-- One capping-loop step: fresh label-0 patient after the label-0 cut, label-1 cut
open: the sample is rejected and the scan continues. -/
theorem limitGo_step_rej0 (k n0 n1 : ℕ) (news : List S4)
    (ht ht2 : List ℕ) (i : ℕ) (s : S4) (rest : List S4) (j : ℕ)
    (hmem : s.p ∉ ht) (hfresh2 : s.p ∉ ht2)
    (hy : s.y = 0) (hn : ¬(n0 + 1 = k + 1)) :
    limitGo true k n0 n1 (some j) none news ht ht2 i (s :: rest)
      = limitGo true k (n0 + 1) n1 (some j) none news (ht.insert s.p) ht2 (i + 1) rest := by
  simp only [limitGo]
  rw [if_neg hmem, if_pos hy, if_neg hn]
  rw [if_neg (by simp : ¬((some j : Option ℕ) ≠ none ∧ (none : Option ℕ) ≠ none ∧ True))]
  rw [if_neg (by simp [hy, hfresh2] :
    ¬(s.y = 0 ∧ (some j : Option ℕ) = none ∨ s.y = 1 ∧ True ∨ s.p ∈ ht2)),
    if_neg (by simp [hy, hfresh2] :
    ¬(s.y = 0 ∧ (some j : Option ℕ) = none ∨ s.y = 1 ∧ True ∨ s.p ∈ ht2))]

/-- One capping-loop step: fresh label-0 patient with both cuts set breaks out. -/
theorem limitGo_step_rej0_break (k n0 n1 : ℕ) (news : List S4)
    (ht ht2 : List ℕ) (i : ℕ) (s : S4) (rest : List S4) (j j' : ℕ)
    (hmem : s.p ∉ ht) (hfresh2 : s.p ∉ ht2)
    (hy : s.y = 0) (hn : ¬(n0 + 1 = k + 1)) :
    limitGo true k n0 n1 (some j) (some j') news ht ht2 i (s :: rest) = news := by
  simp only [limitGo]
  rw [if_neg hmem, if_pos hy, if_neg hn]
  rw [if_pos (⟨by simp, by simp, trivial⟩ :
    (some j : Option ℕ) ≠ none ∧ (some j' : Option ℕ) ≠ none ∧ True)]
  rw [if_neg (by simp [hy, hfresh2] :
    ¬(s.y = 0 ∧ (some j : Option ℕ) = none ∨ s.y = 1 ∧ (some j' : Option ℕ) = none
      ∨ s.p ∈ ht2))]

/-- One capping-loop step: fresh label-1 patient exhausting the cap with the label-0
cut already set breaks out of the loop. -/
theorem limitGo_step_pop1_break (k n0 n1 : ℕ) (news : List S4)
    (ht ht2 : List ℕ) (i : ℕ) (s : S4) (rest : List S4) (j : ℕ)
    (hmem : s.p ∉ ht) (hy : s.y = 1) (hn : n1 + 1 = k + 1) :
    limitGo true k n0 n1 (some j) none news ht ht2 i (s :: rest) = news := by
  simp only [limitGo]
  rw [if_neg hmem, if_neg (by omega : ¬ s.y = 0), if_pos hn]
  rw [if_pos (⟨by simp, by simp, trivial⟩ :
    (some j : Option ℕ) ≠ none ∧ some i ≠ none ∧ True)]
  rw [if_pos (Or.inr (Or.inl ⟨hy, trivial⟩) :
    s.y = 0 ∧ (some j : Option ℕ) = none ∨ s.y = 1 ∧ True ∨ s.p ∈ ht2)]
  exact List.dropLast_concat

/-- One capping-loop step: fresh label-1 patient exhausting the cap with the label-0
cut still open records the cut and removes the sample again. -/
theorem limitGo_step_pop1 (k n0 n1 : ℕ) (news : List S4)
    (ht ht2 : List ℕ) (i : ℕ) (s : S4) (rest : List S4)
    (hmem : s.p ∉ ht) (hfresh2 : s.p ∉ ht2)
    (hy : s.y = 1) (hn : n1 + 1 = k + 1) :
    limitGo true k n0 n1 none none news ht ht2 i (s :: rest)
      = limitGo true k n0 (n1 + 1) none (some i) news (ht.insert s.p) ht2 (i + 1) rest := by
  simp only [limitGo]
  rw [if_neg hmem, if_neg (by omega : ¬ s.y = 0), if_pos hn]
  rw [if_neg (by simp : ¬((none : Option ℕ) ≠ none ∧ some i ≠ none ∧ True))]
  rw [if_pos (Or.inr (Or.inl ⟨hy, trivial⟩) :
    s.y = 0 ∧ True ∨ s.y = 1 ∧ True ∨ s.p ∈ ht2),
    if_pos (Or.inr (Or.inl ⟨hy, trivial⟩) :
    s.y = 0 ∧ True ∨ s.y = 1 ∧ True ∨ s.p ∈ ht2)]
  rw [List.dropLast_concat]
  rw [List.insert_of_not_mem hfresh2, List.erase_cons_head]

/-- One capping-loop step: fresh label-1 patient below the cap is admitted. -/
theorem limitGo_step_adm1 (k n0 n1 : ℕ) (i0 : Option ℕ) (news : List S4)
    (ht ht2 : List ℕ) (i : ℕ) (s : S4) (rest : List S4)
    (hmem : s.p ∉ ht) (hy : s.y = 1) (hn : ¬(n1 + 1 = k + 1)) :
    limitGo true k n0 n1 i0 none news ht ht2 i (s :: rest)
      = limitGo true k n0 (n1 + 1) i0 none (news ++ [s]) (ht.insert s.p)
          (ht2.insert s.p) (i + 1) rest := by
  simp only [limitGo]
  rw [if_neg hmem, if_neg (by omega : ¬ s.y = 0), if_neg hn]
  rw [if_neg (by simp : ¬(i0 ≠ none ∧ (none : Option ℕ) ≠ none ∧ True))]
  rw [if_pos (Or.inr (Or.inl ⟨hy, trivial⟩) :
    s.y = 0 ∧ i0 = none ∨ s.y = 1 ∧ True ∨ s.p ∈ ht2),
    if_pos (Or.inr (Or.inl ⟨hy, trivial⟩) :
    s.y = 0 ∧ i0 = none ∨ s.y = 1 ∧ True ∨ s.p ∈ ht2)]

/-- One capping-loop step: fresh label-1 patient after the label-1 cut, label-0 cut
open: the sample is rejected and the scan continues. -/
theorem limitGo_step_rej1 (k n0 n1 : ℕ) (news : List S4)
    (ht ht2 : List ℕ) (i : ℕ) (s : S4) (rest : List S4) (j : ℕ)
    (hmem : s.p ∉ ht) (hfresh2 : s.p ∉ ht2)
    (hy : s.y = 1) (hn : ¬(n1 + 1 = k + 1)) :
    limitGo true k n0 n1 none (some j) news ht ht2 i (s :: rest)
      = limitGo true k n0 (n1 + 1) none (some j) news (ht.insert s.p) ht2 (i + 1) rest := by
  simp only [limitGo]
  rw [if_neg hmem, if_neg (by omega : ¬ s.y = 0), if_neg hn]
  rw [if_neg (by simp : ¬((none : Option ℕ) ≠ none ∧ (some j : Option ℕ) ≠ none ∧ True))]
  rw [if_neg (by simp [hy, hfresh2] :
    ¬(s.y = 0 ∧ True ∨ s.y = 1 ∧ (some j : Option ℕ) = none ∨ s.p ∈ ht2)),
    if_neg (by simp [hy, hfresh2] :
    ¬(s.y = 0 ∧ True ∨ s.y = 1 ∧ (some j : Option ℕ) = none ∨ s.p ∈ ht2))]

/-- One capping-loop step: fresh label-1 patient with both cuts set breaks out. -/
theorem limitGo_step_rej1_break (k n0 n1 : ℕ) (news : List S4)
    (ht ht2 : List ℕ) (i : ℕ) (s : S4) (rest : List S4) (j j' : ℕ)
    (hmem : s.p ∉ ht) (hfresh2 : s.p ∉ ht2)
    (hy : s.y = 1) (hn : ¬(n1 + 1 = k + 1)) :
    limitGo true k n0 n1 (some j) (some j') news ht ht2 i (s :: rest) = news := by
  simp only [limitGo]
  rw [if_neg hmem, if_neg (by omega : ¬ s.y = 0), if_neg hn]
  rw [if_pos (⟨by simp, by simp, trivial⟩ :
    (some j : Option ℕ) ≠ none ∧ (some j' : Option ℕ) ≠ none ∧ True)]
  rw [if_neg (by simp [hy, hfresh2] :
    ¬(s.y = 0 ∧ (some j : Option ℕ) = none ∨ s.y = 1 ∧ (some j' : Option ℕ) = none
      ∨ s.p ∈ ht2))]

/-- Master lemma of the capping loop: from any state satisfying the invariant over a
no-revisit, label-uniform processed prefix, the loop output has at most k distinct
patients per label and contains every sample of every patient it admits. -/
theorem limitGo_spec (k : ℕ) : ∀ (rest done : List S4) (n0 n1 : ℕ) (i0 i1 : Option ℕ)
    (news : List S4) (ht ht2 : List ℕ) (i : ℕ),
    noRevisit ((done ++ rest).map S4.p) = true →
    (∀ a ∈ done ++ rest, ∀ b ∈ done ++ rest, a.p = b.p → a.y = b.y) →
    (∀ a ∈ done ++ rest, a.y = 0 ∨ a.y = 1) →
    LimInv k n0 n1 i0 i1 news ht ht2 done →
    (((limitGo true k n0 n1 i0 i1 news ht ht2 i rest).filter
        (fun s => s.y = 0)).map S4.p).toFinset.card ≤ k
    ∧ (((limitGo true k n0 n1 i0 i1 news ht ht2 i rest).filter
        (fun s => s.y = 1)).map S4.p).toFinset.card ≤ k
    ∧ ∀ q ∈ (limitGo true k n0 n1 i0 i1 news ht ht2 i rest).map S4.p,
        (limitGo true k n0 n1 i0 i1 news ht ht2 i rest).filter (fun s => s.p = q)
          = (done ++ rest).filter (fun s => s.p = q) := by
  intro rest
  induction rest with
  | nil =>
    intro done n0 n1 i0 i1 news ht ht2 i hno hU hB hinv
    have hterm := limitGo_terminal k n0 n1 i0 i1 news ht ht2 done [] hinv
      (fun q _ t htm => absurd htm (List.not_mem_nil t))
    simpa [limitGo] using hterm
  | cons s rest ih =>
    intro done n0 n1 i0 i1 news ht ht2 i hno hU hB hinv
    have hsmem : s ∈ done ++ s :: rest := by simp
    have hassoc : (done ++ [s]) ++ rest = done ++ s :: rest := by simp
    have hGno : noRevisit (((done ++ [s]) ++ rest).map S4.p) = true := by
      rw [hassoc]; exact hno
    have hGU : ∀ a ∈ (done ++ [s]) ++ rest, ∀ b ∈ (done ++ [s]) ++ rest,
        a.p = b.p → a.y = b.y := by rw [hassoc]; exact hU
    have hGB : ∀ a ∈ (done ++ [s]) ++ rest, a.y = 0 ∨ a.y = 1 := by
      rw [hassoc]; exact hB
    have hUds : ∀ t ∈ done, t.p = s.p → t.y = s.y :=
      fun t htd htp => hU t (List.mem_append_left _ htd) s hsmem htp
    have hI3' : ∀ t ∈ done ++ [s], t.p ∈ ht.insert s.p := by
      intro t htm
      rcases List.mem_append.mp htm with h | h
      · exact List.mem_insert_of_mem (hinv.hI3 t h)
      · rw [List.mem_singleton.mp h]
        exact List.mem_insert_self s.p ht
    have hI4' : ∀ q ∈ ht.insert s.p, ∃ t, t ∈ done ++ [s] ∧ t.p = q := by
      intro q hq
      rcases List.mem_insert_iff.mp hq with rfl | hq'
      · exact ⟨s, by simp, rfl⟩
      · obtain ⟨t, htd, htp⟩ := hinv.hI4 q hq'
        exact ⟨t, List.mem_append_left _ htd, htp⟩
    have hI4w : ∀ q ∈ ht, ∃ t, t ∈ done ++ [s] ∧ t.p = q := by
      intro q hq
      obtain ⟨t, htd, htp⟩ := hinv.hI4 q hq
      exact ⟨t, List.mem_append_left _ htd, htp⟩
    by_cases hmem : s.p ∈ ht
    · -- seen patient
      have hI3s : ∀ t ∈ done ++ [s], t.p ∈ ht := by
        intro t htm
        rcases List.mem_append.mp htm with h | h
        · exact hinv.hI3 t h
        · rw [List.mem_singleton.mp h]; exact hmem
      by_cases hpm : s.p ∈ ht2
      · -- seen and admitted
        have hcard0 : (((news ++ [s]).filter (fun t => t.y = 0)).map S4.p).toFinset.card
            = ((news.filter (fun t => t.y = 0)).map S4.p).toFinset.card := by
          by_cases hyc : s.y = 0
          · exact card_label_append_of_mem news s 0 hyc
              (patient_label_rep news done ht ht2 s.p 0 hinv.hI1 hinv.hI2 hinv.hI4 hpm
                (fun t htd htp => by rw [hUds t htd htp, hyc]))
          · rw [filter_label_append_ne news s 0 hyc]
        have hcard1 : (((news ++ [s]).filter (fun t => t.y = 1)).map S4.p).toFinset.card
            = ((news.filter (fun t => t.y = 1)).map S4.p).toFinset.card := by
          by_cases hyc : s.y = 1
          · exact card_label_append_of_mem news s 1 hyc
              (patient_label_rep news done ht ht2 s.p 1 hinv.hI1 hinv.hI2 hinv.hI4 hpm
                (fun t htd htp => by rw [hUds t htd htp, hyc]))
          · rw [filter_label_append_ne news s 1 hyc]
        have hinv' : LimInv k n0 n1 i0 i1 (news ++ [s]) ht ht2 (done ++ [s]) := by
          refine ⟨?_, hinv.hI2, hI3s, hI4w, ?_, ?_, ?_, ?_, ?_, ?_⟩
          · rw [filter_done_append_kept done s ht2 hpm, ← hinv.hI1]
          · intro h0
            obtain ⟨hc, hk⟩ := hinv.hI5 h0
            exact ⟨by rw [hcard0]; exact hc, hk⟩
          · intro h0
            obtain ⟨hc, hk⟩ := hinv.hI6 h0
            exact ⟨by rw [hcard0]; exact hc, hk⟩
          · intro h1
            obtain ⟨hc, hk⟩ := hinv.hI7 h1
            exact ⟨by rw [hcard1]; exact hc, hk⟩
          · intro h1
            obtain ⟨hc, hk⟩ := hinv.hI8 h1
            exact ⟨by rw [hcard1]; exact hc, hk⟩
          · intro t htm hy0 hnm
            rcases List.mem_append.mp htm with h | h
            · exact hinv.hI10 t h hy0 hnm
            · rw [List.mem_singleton.mp h] at hnm
              exact absurd hpm hnm
          · intro t htm hy1 hnm
            rcases List.mem_append.mp htm with h | h
            · exact hinv.hI11 t h hy1 hnm
            · rw [List.mem_singleton.mp h] at hnm
              exact absurd hpm hnm
        rw [limitGo_step_seen_adm k n0 n1 i0 i1 news ht ht2 i s rest hmem
          (Or.inr (Or.inr hpm)), List.insert_of_mem hpm]
        have hres := ih (done ++ [s]) n0 n1 i0 i1 (news ++ [s]) ht ht2 (i + 1)
          hGno hGU hGB hinv'
        rw [hassoc] at hres
        exact hres
      · -- seen and rejected
        have hadmF : ¬((s.y = 0 ∧ i0 = none) ∨ (s.y = 1 ∧ i1 = none) ∨ s.p ∈ ht2) := by
          rintro (⟨hy0, hi0⟩ | ⟨hy1, hi1⟩ | hmem2)
          · obtain ⟨t, htd, htp⟩ := hinv.hI4 s.p hmem
            have hty := hUds t htd htp
            exact hinv.hI10 t htd (by omega) (fun hh => hpm (htp ▸ hh)) hi0
          · obtain ⟨t, htd, htp⟩ := hinv.hI4 s.p hmem
            have hty := hUds t htd htp
            exact hinv.hI11 t htd (by omega) (fun hh => hpm (htp ▸ hh)) hi1
          · exact hpm hmem2
        have hinv' : LimInv k n0 n1 i0 i1 news ht ht2 (done ++ [s]) := by
          refine ⟨?_, hinv.hI2, hI3s, hI4w, hinv.hI5, hinv.hI6, hinv.hI7, hinv.hI8,
            ?_, ?_⟩
          · rw [filter_done_append_reject done s ht2 hpm]
            exact hinv.hI1
          · intro t htm hy0 hnm
            rcases List.mem_append.mp htm with h | h
            · exact hinv.hI10 t h hy0 hnm
            · intro hi0
              rw [List.mem_singleton.mp h] at hy0
              exact hadmF (Or.inl ⟨hy0, hi0⟩)
          · intro t htm hy1 hnm
            rcases List.mem_append.mp htm with h | h
            · exact hinv.hI11 t h hy1 hnm
            · intro hi1
              rw [List.mem_singleton.mp h] at hy1
              exact hadmF (Or.inr (Or.inl ⟨hy1, hi1⟩))
        rw [limitGo_step_seen_rej k n0 n1 i0 i1 news ht ht2 i s rest hmem hadmF]
        have hres := ih (done ++ [s]) n0 n1 i0 i1 news ht ht2 (i + 1) hGno hGU hGB hinv'
        rw [hassoc] at hres
        exact hres
    · -- fresh patient
      have hfresh2 : s.p ∉ ht2 := fun h => hmem (hinv.hI2 s.p h)
      have hI1rej : news = (done ++ [s]).filter (fun t => decide (t.p ∈ ht2)) := by
        rw [filter_done_append_reject done s ht2 hfresh2]
        exact hinv.hI1
      have htail := tail_fresh done s rest ht ht2 hno hinv.hI2 hinv.hI4 hmem
      rcases hB s hsmem with hy | hy
      · -- label 0
        by_cases hn : n0 + 1 = k + 1
        · -- cap reached
          cases i0 with
          | some j =>
            exact absurd hn (by have := (hinv.hI6 (by simp)).2; omega)
          | none =>
            cases i1 with
            | some j =>
              rw [limitGo_step_pop0_break k n0 n1 news ht ht2 i s rest j hmem hy hn]
              exact limitGo_terminal k n0 n1 none (some j) news ht ht2 done (s :: rest)
                hinv htail
            | none =>
              have hinv' : LimInv k (n0 + 1) n1 (some i) none news (ht.insert s.p) ht2
                  (done ++ [s]) := by
                refine ⟨hI1rej, ?_, hI3', hI4', ?_, ?_, ?_, ?_, ?_, ?_⟩
                · exact fun r hr => List.mem_insert_of_mem (hinv.hI2 r hr)
                · intro h; exact absurd h (by simp)
                · intro _
                  obtain ⟨hc, hk⟩ := hinv.hI5 rfl
                  exact ⟨by rw [hc]; omega, by omega⟩
                · exact fun _ => hinv.hI7 rfl
                · intro h; exact absurd rfl h
                · intro t htm hy0 hnm; simp
                · intro t htm hy1 hnm
                  rcases List.mem_append.mp htm with h | h
                  · exact hinv.hI11 t h hy1 hnm
                  · rw [List.mem_singleton.mp h] at hy1; omega
              rw [limitGo_step_pop0 k n0 n1 news ht ht2 i s rest hmem hfresh2 hy hn]
              have hres := ih (done ++ [s]) (n0 + 1) n1 (some i) none news
                (ht.insert s.p) ht2 (i + 1) hGno hGU hGB hinv'
              rw [hassoc] at hres
              exact hres
        · -- below the cap
          cases i0 with
          | none =>
            have hnrep0 := fresh_not_rep news done ht ht2 0 s hinv.hI1 hinv.hI2 hmem
            have hinv' : LimInv k (n0 + 1) n1 none i1 (news ++ [s]) (ht.insert s.p)
                (ht2.insert s.p) (done ++ [s]) := by
              refine ⟨?_, ?_, hI3', hI4', ?_, ?_, ?_, ?_, ?_, ?_⟩
              · rw [filter_done_insert done s ht ht2 hinv.hI3 hmem, ← hinv.hI1]
              · intro r hr
                rcases List.mem_insert_iff.mp hr with rfl | hr'
                · exact List.mem_insert_self s.p ht
                · exact List.mem_insert_of_mem (hinv.hI2 r hr')
              · intro _
                obtain ⟨hc, hk⟩ := hinv.hI5 rfl
                refine ⟨?_, by omega⟩
                rw [card_label_append_of_not_mem news s 0 hy hnrep0, hc]
              · intro h; exact absurd rfl h
              · intro h1
                obtain ⟨hc, hk⟩ := hinv.hI7 h1
                rw [filter_label_append_ne news s 1 (by omega)]
                exact ⟨hc, hk⟩
              · intro h1
                obtain ⟨hc, hk⟩ := hinv.hI8 h1
                rw [filter_label_append_ne news s 1 (by omega)]
                exact ⟨hc, hk⟩
              · intro t htm hy0 hnm
                rcases List.mem_append.mp htm with h | h
                · exact hinv.hI10 t h hy0 (fun hh => hnm (List.mem_insert_of_mem hh))
                · rw [List.mem_singleton.mp h] at hnm
                  exact absurd (List.mem_insert_self s.p ht2) hnm
              · intro t htm hy1 hnm
                rcases List.mem_append.mp htm with h | h
                · exact hinv.hI11 t h hy1 (fun hh => hnm (List.mem_insert_of_mem hh))
                · rw [List.mem_singleton.mp h] at hy1; omega
            rw [limitGo_step_adm0 k n0 n1 i1 news ht ht2 i s rest hmem hy hn]
            have hres := ih (done ++ [s]) (n0 + 1) n1 none i1 (news ++ [s])
              (ht.insert s.p) (ht2.insert s.p) (i + 1) hGno hGU hGB hinv'
            rw [hassoc] at hres
            exact hres
          | some j =>
            cases i1 with
            | some j' =>
              rw [limitGo_step_rej0_break k n0 n1 news ht ht2 i s rest j j'
                hmem hfresh2 hy hn]
              exact limitGo_terminal k n0 n1 (some j) (some j') news ht ht2 done
                (s :: rest) hinv htail
            | none =>
              have hinv' : LimInv k (n0 + 1) n1 (some j) none news (ht.insert s.p) ht2
                  (done ++ [s]) := by
                refine ⟨hI1rej, ?_, hI3', hI4', ?_, ?_, ?_, ?_, ?_, ?_⟩
                · exact fun r hr => List.mem_insert_of_mem (hinv.hI2 r hr)
                · intro h; exact absurd h (by simp)
                · intro _
                  obtain ⟨hc, hk⟩ := hinv.hI6 (by simp)
                  exact ⟨hc, by omega⟩
                · exact fun _ => hinv.hI7 rfl
                · intro h; exact absurd rfl h
                · intro t htm hy0 hnm; simp
                · intro t htm hy1 hnm
                  rcases List.mem_append.mp htm with h | h
                  · exact hinv.hI11 t h hy1 hnm
                  · rw [List.mem_singleton.mp h] at hy1; omega
              rw [limitGo_step_rej0 k n0 n1 news ht ht2 i s rest j hmem hfresh2 hy hn]
              have hres := ih (done ++ [s]) (n0 + 1) n1 (some j) none news
                (ht.insert s.p) ht2 (i + 1) hGno hGU hGB hinv'
              rw [hassoc] at hres
              exact hres
      · -- label 1
        by_cases hn : n1 + 1 = k + 1
        · -- cap reached
          cases i1 with
          | some j =>
            exact absurd hn (by have := (hinv.hI8 (by simp)).2; omega)
          | none =>
            cases i0 with
            | some j =>
              rw [limitGo_step_pop1_break k n0 n1 news ht ht2 i s rest j hmem hy hn]
              exact limitGo_terminal k n0 n1 (some j) none news ht ht2 done (s :: rest)
                hinv htail
            | none =>
              have hinv' : LimInv k n0 (n1 + 1) none (some i) news (ht.insert s.p) ht2
                  (done ++ [s]) := by
                refine ⟨hI1rej, ?_, hI3', hI4', ?_, ?_, ?_, ?_, ?_, ?_⟩
                · exact fun r hr => List.mem_insert_of_mem (hinv.hI2 r hr)
                · exact fun _ => hinv.hI5 rfl
                · intro h; exact absurd rfl h
                · intro h; exact absurd h (by simp)
                · intro _
                  obtain ⟨hc, hk⟩ := hinv.hI7 rfl
                  exact ⟨by rw [hc]; omega, by omega⟩
                · intro t htm hy0 hnm
                  rcases List.mem_append.mp htm with h | h
                  · exact hinv.hI10 t h hy0 hnm
                  · rw [List.mem_singleton.mp h] at hy0; omega
                · intro t htm hy1 hnm; simp
              rw [limitGo_step_pop1 k n0 n1 news ht ht2 i s rest hmem hfresh2 hy hn]
              have hres := ih (done ++ [s]) n0 (n1 + 1) none (some i) news
                (ht.insert s.p) ht2 (i + 1) hGno hGU hGB hinv'
              rw [hassoc] at hres
              exact hres
        · -- below the cap
          cases i1 with
          | none =>
            have hnrep1 := fresh_not_rep news done ht ht2 1 s hinv.hI1 hinv.hI2 hmem
            have hinv' : LimInv k n0 (n1 + 1) i0 none (news ++ [s]) (ht.insert s.p)
                (ht2.insert s.p) (done ++ [s]) := by
              refine ⟨?_, ?_, hI3', hI4', ?_, ?_, ?_, ?_, ?_, ?_⟩
              · rw [filter_done_insert done s ht ht2 hinv.hI3 hmem, ← hinv.hI1]
              · intro r hr
                rcases List.mem_insert_iff.mp hr with rfl | hr'
                · exact List.mem_insert_self s.p ht
                · exact List.mem_insert_of_mem (hinv.hI2 r hr')
              · intro h0
                obtain ⟨hc, hk⟩ := hinv.hI5 h0
                rw [filter_label_append_ne news s 0 (by omega)]
                exact ⟨hc, hk⟩
              · intro h0
                obtain ⟨hc, hk⟩ := hinv.hI6 h0
                rw [filter_label_append_ne news s 0 (by omega)]
                exact ⟨hc, hk⟩
              · intro _
                obtain ⟨hc, hk⟩ := hinv.hI7 rfl
                refine ⟨?_, by omega⟩
                rw [card_label_append_of_not_mem news s 1 hy hnrep1, hc]
              · intro h; exact absurd rfl h
              · intro t htm hy0 hnm
                rcases List.mem_append.mp htm with h | h
                · exact hinv.hI10 t h hy0 (fun hh => hnm (List.mem_insert_of_mem hh))
                · rw [List.mem_singleton.mp h] at hy0; omega
              · intro t htm hy1 hnm
                rcases List.mem_append.mp htm with h | h
                · exact hinv.hI11 t h hy1 (fun hh => hnm (List.mem_insert_of_mem hh))
                · rw [List.mem_singleton.mp h] at hnm
                  exact absurd (List.mem_insert_self s.p ht2) hnm
            rw [limitGo_step_adm1 k n0 n1 i0 news ht ht2 i s rest hmem hy hn]
            have hres := ih (done ++ [s]) n0 (n1 + 1) i0 none (news ++ [s])
              (ht.insert s.p) (ht2.insert s.p) (i + 1) hGno hGU hGB hinv'
            rw [hassoc] at hres
            exact hres
          | some j =>
            cases i0 with
            | some j' =>
              rw [limitGo_step_rej1_break k n0 n1 news ht ht2 i s rest j' j
                hmem hfresh2 hy hn]
              exact limitGo_terminal k n0 n1 (some j') (some j) news ht ht2 done
                (s :: rest) hinv htail
            | none =>
              have hinv' : LimInv k n0 (n1 + 1) none (some j) news (ht.insert s.p) ht2
                  (done ++ [s]) := by
                refine ⟨hI1rej, ?_, hI3', hI4', ?_, ?_, ?_, ?_, ?_, ?_⟩
                · exact fun r hr => List.mem_insert_of_mem (hinv.hI2 r hr)
                · exact fun _ => hinv.hI5 rfl
                · intro h; exact absurd rfl h
                · intro h; exact absurd h (by simp)
                · intro _
                  obtain ⟨hc, hk⟩ := hinv.hI8 (by simp)
                  exact ⟨hc, by omega⟩
                · intro t htm hy0 hnm
                  rcases List.mem_append.mp htm with h | h
                  · exact hinv.hI10 t h hy0 hnm
                  · rw [List.mem_singleton.mp h] at hy0; omega
                · intro t htm hy1 hnm; simp
              rw [limitGo_step_rej1 k n0 n1 news ht ht2 i s rest j hmem hfresh2 hy hn]
              have hres := ih (done ++ [s]) n0 (n1 + 1) none (some j) news
                (ht.insert s.p) ht2 (i + 1) hGno hGU hGB hinv'
              rw [hassoc] at hres
              exact hres

/-- Counterexample to C1: a patient-contiguous input whose patient 11 carries samples
of both labels.  With cap 1, limit_number_patients_per_label admits two distinct
label-1 patients (11 and 12) and keeps only one of patient 11's two samples, so both
the per-label cap and the no-partial-patients completeness fail. -/
theorem C1_counterexample :
    noRevisit (([⟨0, 0, 0, 10⟩, ⟨1, 0, 0, 11⟩, ⟨2, 1, 0, 11⟩, ⟨3, 1, 0, 12⟩] :
        List S4).map S4.p) = true
    ∧ limitSamples [⟨0, 0, 0, 10⟩, ⟨1, 0, 0, 11⟩, ⟨2, 1, 0, 11⟩, ⟨3, 1, 0, 12⟩] 1 true
        = [⟨0, 0, 0, 10⟩, ⟨2, 1, 0, 11⟩, ⟨3, 1, 0, 12⟩]
    ∧ (((limitSamples [⟨0, 0, 0, 10⟩, ⟨1, 0, 0, 11⟩, ⟨2, 1, 0, 11⟩, ⟨3, 1, 0, 12⟩] 1
          true).filter (fun s => s.y = 1)).map S4.p).toFinset.card = 2
    ∧ 11 ∈ (limitSamples [⟨0, 0, 0, 10⟩, ⟨1, 0, 0, 11⟩, ⟨2, 1, 0, 11⟩, ⟨3, 1, 0, 12⟩] 1
          true).map S4.p
    ∧ (limitSamples [⟨0, 0, 0, 10⟩, ⟨1, 0, 0, 11⟩, ⟨2, 1, 0, 11⟩, ⟨3, 1, 0, 12⟩] 1
          true).filter (fun s => s.p = 11)
        ≠ ([⟨0, 0, 0, 10⟩, ⟨1, 0, 0, 11⟩, ⟨2, 1, 0, 11⟩, ⟨3, 1, 0, 12⟩] :
            List S4).filter (fun s => s.p = 11) := by
  decide

/-- C1 (amended): when same-patient samples are contiguous, every patient's samples
all carry one label, and labels are binary, the output of
limit_number_patients_per_label with cap k and adjacent=True has at most k distinct
patients per label, and for every patient admitted to the output every one of that
patient's samples is present. -/
theorem C1_amended_cap_and_completeness (xs ys ms ps : List ℕ) (k : ℕ)
    (hno : noRevisit ((zip4 xs ys ms ps).map S4.p) = true)
    (hU : ∀ a ∈ zip4 xs ys ms ps, ∀ b ∈ zip4 xs ys ms ps, a.p = b.p → a.y = b.y)
    (hB : ∀ a ∈ zip4 xs ys ms ps, a.y = 0 ∨ a.y = 1) :
    limit_number_patients_per_label xs ys ms ps (some k) true
      = unzip4 (limitSamples (zip4 xs ys ms ps) k true)
    ∧ (((limitSamples (zip4 xs ys ms ps) k true).filter
        (fun s => s.y = 0)).map S4.p).toFinset.card ≤ k
    ∧ (((limitSamples (zip4 xs ys ms ps) k true).filter
        (fun s => s.y = 1)).map S4.p).toFinset.card ≤ k
    ∧ ∀ q ∈ (limitSamples (zip4 xs ys ms ps) k true).map S4.p,
        (limitSamples (zip4 xs ys ms ps) k true).filter (fun s => s.p = q)
          = (zip4 xs ys ms ps).filter (fun s => s.p = q) := by
  refine ⟨rfl, ?_⟩
  have hspec := limitGo_spec k (zip4 xs ys ms ps) [] 0 0 none none [] [] [] 0
    (by simpa using hno) (by simpa using hU) (by simpa using hB)
    ⟨rfl, by simp, by simp, by simp, fun _ => ⟨by simp, Nat.zero_le k⟩,
      fun h => absurd rfl h, fun _ => ⟨by simp, Nat.zero_le k⟩, fun h => absurd rfl h,
      by simp, by simp⟩
  simpa [limitSamples] using hspec

/-- Witness for the amended C1 at the spec's concrete scenario: 8 samples from
patients 1,1,2,2,3,3,4,4 with labels 0,0,1,1,0,0,1,1 and cap 1 keep exactly one
patient per label with both samples each. -/
theorem C1_amended_cap_and_completeness_witness :
    noRevisit ((zip4 [0, 1, 2, 3, 4, 5, 6, 7] [0, 0, 1, 1, 0, 0, 1, 1]
        [0, 0, 0, 0, 0, 0, 0, 0] [1, 1, 2, 2, 3, 3, 4, 4]).map S4.p) = true
    ∧ limitSamples (zip4 [0, 1, 2, 3, 4, 5, 6, 7] [0, 0, 1, 1, 0, 0, 1, 1]
        [0, 0, 0, 0, 0, 0, 0, 0] [1, 1, 2, 2, 3, 3, 4, 4]) 1 true
        = [⟨0, 0, 0, 1⟩, ⟨1, 0, 0, 1⟩, ⟨2, 1, 0, 2⟩, ⟨3, 1, 0, 2⟩]
    ∧ (((limitSamples (zip4 [0, 1, 2, 3, 4, 5, 6, 7] [0, 0, 1, 1, 0, 0, 1, 1]
        [0, 0, 0, 0, 0, 0, 0, 0] [1, 1, 2, 2, 3, 3, 4, 4]) 1 true).filter
          (fun s => s.y = 0)).map S4.p).toFinset.card ≤ 1
    ∧ (((limitSamples (zip4 [0, 1, 2, 3, 4, 5, 6, 7] [0, 0, 1, 1, 0, 0, 1, 1]
        [0, 0, 0, 0, 0, 0, 0, 0] [1, 1, 2, 2, 3, 3, 4, 4]) 1 true).filter
          (fun s => s.y = 1)).map S4.p).toFinset.card ≤ 1 := by
  have h := C1_amended_cap_and_completeness [0, 1, 2, 3, 4, 5, 6, 7]
    [0, 0, 1, 1, 0, 0, 1, 1] [0, 0, 0, 0, 0, 0, 0, 0] [1, 1, 2, 2, 3, 3, 4, 4] 1
    (by decide) (by decide) (by decide)
  exact ⟨by decide, by decide, h.2.1, h.2.2.1⟩

end Runner
